import Mathlib

/-!
# Verification of the tiddl Spotify-to-Tidal migration pipeline

Shallow embedding of the migration core of the `tiddl` repository:

* `tiddl/cli/commands/migrate/tracks.py`   — matching engine
* `tiddl/cli/commands/migrate/command.py`  — per-playlist migration loop, entry checks
* `tiddl/cli/commands/migrate/playlist.py` — duplicate removal
* `tiddl/cli/commands/migrate/report.py`   — report collector
* `tiddl/cli/commands/migrate/downloader.py` — playlist downloader
* `tiddl/core/odesli/client.py`            — rate-limited universal-link client
* `tiddl/core/api/api.py`                  — playlist add protocol

Python strings are Lean `String`, Python sets are Lean lists used only through
membership, millisecond/second durations are integers compared over `ℚ`
(Python compares floats; all values of interest are exact small rationals).
-/

/-! ## Matching engine: `tracks.py` -/

/-- Word character in the sense of the `\b` boundary of `REMIX_PATTERN`
(`re.compile(r'\bremix\b', re.IGNORECASE)`).  Python `\w` is Unicode-aware;
Lean's character predicates are ASCII, which is the scope of this model. -/
def isWordChar (c : Char) : Bool := c.isAlphanum || c = '_'

/-- Does the word "remix" (case-insensitively) start at the head of `l`,
with `prev` the character just before `l` (`none` at the start of the
string)?  Both ends must be word boundaries. -/
def remixAtHead (l : List Char) (prev : Option Char) : Bool :=
  match l with
  | a :: b :: c :: d :: e :: rest =>
    (a.toLower = 'r' && b.toLower = 'e' && c.toLower = 'm' &&
     d.toLower = 'i' && e.toLower = 'x')
    && (match prev with | none => true | some p => !isWordChar p)
    && (match rest with | [] => true | f :: _ => !isWordChar f)
  | _ => false

/-- Scan of `REMIX_PATTERN.search` over a character list. -/
def remixSearch : List Char → Option Char → Bool
  | [], _ => false
  | c :: rest, prev => remixAtHead (c :: rest) prev || remixSearch rest (some c)

/-- `is_remix(name)`: the name contains the whole word "remix",
case-insensitively (`REMIX_PATTERN.search`). -/
def isRemix (name : String) : Bool := remixSearch name.toList none

/-- `remix_status_matches(name1, name2)`: both names are remixes, or
neither is. -/
def remixStatusMatches (name1 name2 : String) : Bool :=
  isRemix name1 == isRemix name2

/-- Substring test, modelling Python's `needle in hay`. -/
def strContains (hay needle : String) : Bool :=
  (List.range (hay.toList.length + 1)).any
    (fun i => needle.toList.isPrefixOf (hay.toList.drop i))

/-- The text-normalization helpers of `tracks.py`.  `normalize` stands for
`normalize_for_search(text, keep_non_ascii)` and `simplify` for
`simplify_name`; their bodies involve regex substitution and Unicode NFKD
normalization, which no claim depends on, so they are kept as parameters of
the matching engine. -/
structure TextNorm where
  normalize : String → Bool → String
  simplify : String → String

/-- `duration_match(tidal_duration, spotify_duration_ms, tolerance_sec)`:
Tidal durations are seconds, Spotify durations milliseconds. -/
def durationMatch (tidalDuration spotifyDurationMs : ℤ) (toleranceSec : ℚ) : Bool :=
  |(tidalDuration : ℚ) - (spotifyDurationMs : ℚ) / 1000| ≤ toleranceSec

/-- `name_match(tidal_name, spotify_name)`: remix-status gate first, then
normalized mutual-substring checks, then the `simplify_name` fallback. -/
def nameMatch (tn : TextNorm) (tidalName spotifyName : String) : Bool :=
  if !remixStatusMatches tidalName spotifyName then false
  else
    let normTidal := tn.normalize tidalName true
    let normSpotify := tn.normalize spotifyName true
    if normTidal ≠ "" && normSpotify ≠ "" &&
       (strContains normTidal normSpotify || strContains normSpotify normTidal) then true
    else
      let asciiTidal := tn.normalize tidalName false
      let asciiSpotify := tn.normalize spotifyName false
      if asciiTidal ≠ "" && asciiSpotify ≠ "" &&
         (strContains asciiTidal asciiSpotify || strContains asciiSpotify asciiTidal) then true
      else if asciiTidal ≠ "" && normSpotify ≠ "" &&
          (strContains normSpotify asciiTidal || strContains asciiTidal normSpotify) then true
      else
        let simpleTidal := tn.simplify tidalName
        let simpleSpotify := tn.simplify spotifyName
        strContains simpleTidal simpleSpotify || strContains simpleSpotify simpleTidal

/-- `get_artist_names(artists, keep_non_ascii)` of `artist_match`: split each
name on the separators, normalize each part, collect the non-empty results
(a Python set, modelled as a list used through membership). -/
def getArtistNames (tn : TextNorm) (artists : List String) (keepNonAscii : Bool) :
    List String :=
  artists.foldl (fun acc name =>
    let replaced := ((((name.replace "&" ",").replace " x " ",").replace " X " ",").replace
        " vs " ",").replace " vs. " ","
    (replaced.splitOn ",").foldl (fun acc2 part =>
      let normalized := tn.normalize part.trim keepNonAscii
      if normalized ≠ "" && !(acc2.contains normalized) then acc2 ++ [normalized]
      else acc2) acc) []

/-- `artist_match(tidal_artists, spotify_artists)`: set intersection with
non-ASCII kept, then ASCII-only, then the pairwise substring check for names
longer than 3 characters. -/
def artistMatch (tn : TextNorm) (tidalArtists spotifyArtists : List String) : Bool :=
  let tidalNames := getArtistNames tn tidalArtists true
  let spotifyNames := getArtistNames tn spotifyArtists true
  if tidalNames.any (fun n => spotifyNames.contains n) then true
  else
    let tidalAscii := getArtistNames tn tidalArtists false
    let spotifyAscii := getArtistNames tn spotifyArtists false
    if tidalAscii.any (fun n => spotifyAscii.contains n) then true
    else
      tidalNames.any (fun tName => spotifyNames.any (fun sName =>
        (3 < tName.length && 3 < sName.length) &&
        (strContains sName tName || strContains tName sName)))

/-- A Spotify source-track descriptor (the fields the migration loop reads). -/
structure SpTrack where
  spotifyId : String
  name : String
  artists : List String
  durationMs : ℤ
deriving DecidableEq, Repr

/-- One entry of `existing_tracks_metadata`: the (id, title, artists,
duration-in-seconds) snapshot recorded per playlist item. -/
structure TidalTrackMeta where
  id : String
  title : String
  artists : List String
  duration : ℤ
deriving DecidableEq, Repr

/-- `match_spotify_to_existing_tidal(spotify_track, existing_tracks)`:
first candidate passing the duration, name and artist predicates wins. -/
def matchSpotifyToExistingTidal (tn : TextNorm) (t : SpTrack) :
    List TidalTrackMeta → Option String
  | [] => none
  | c :: rest =>
    if durationMatch c.duration t.durationMs 2 &&
       nameMatch tn c.title t.name &&
       artistMatch tn c.artists t.artists
    then some c.id
    else matchSpotifyToExistingTidal tn t rest

/-- Identity normalizer used for concrete evaluations. -/
def idNorm : TextNorm := ⟨fun s _ => s, fun s => s⟩

/-! ## Per-playlist migration loop: `command.py`, `migrate_playlist` -/

/-- One row recorded by `report_collector.add_track` during the loop
(the fields the loop determines: track, resolved id, outcome, source). -/
structure Report where
  spotifyId : String
  tidalId : Option String
  status : String
  source : String
deriving DecidableEq, Repr

/-- External collaborators of one `migrate_playlist` call.  `odesli` is
`odesli_client.convert_spotify_to_tidal` (None also stands for a caught
exception), `search` is `search_tidal_track`, and `addOk` tells whether
`add_single_track_to_playlist` succeeds for a given Tidal id (false also
stands for a raised error).  Modelling them as functions makes each one
deterministic within and across runs. -/
structure MigEnv where
  tn : TextNorm
  odesli : String → Option String
  search : SpTrack → Option String
  addOk : String → Bool

/-- The in-memory state `migrate_playlist` threads through its track loop:
`existing_track_ids` (a set), `existing_tracks_metadata`, the remote
playlist's item sequence, `added_tracks`, and the collected report rows. -/
structure MigState where
  existingIds : List String
  meta : List TidalTrackMeta
  items : List String
  addedTracks : List String
  reports : List Report
deriving DecidableEq, Repr

/-- `set.add` on the id set; also the server-side append under the
`onDuplicates=SKIP` policy (the item is appended unless already present). -/
def addUnique (l : List String) (x : String) : List String :=
  if l.contains x then l else l ++ [x]

/-- Steps 1 and 2 of the cascade: Odesli first, then the Tidal search
fallback, together with the `source` tag set on success. -/
def resolveTrack (env : MigEnv) (t : SpTrack) : Option (String × String) :=
  match env.odesli t.spotifyId with
  | some x => some (x, "odesli")
  | none =>
    match env.search t with
    | some x => some (x, "tidal_search")
    | none => none

/-- The body of the `for track_idx, spotify_track in enumerate(...)` loop of
`migrate_playlist`: metadata match, cascade, duplicate check, add, and the
post-add rescue that re-runs the Tidal search when the Odesli id could not
be added. -/
def processTrack (env : MigEnv) (s : MigState) (t : SpTrack) : MigState :=
  match matchSpotifyToExistingTidal env.tn t s.meta with
  | some matchedId =>
    { s with reports :=
        s.reports ++ [⟨t.spotifyId, some matchedId, "skipped", "metadata_match"⟩] }
  | none =>
    match resolveTrack env t with
    | none =>
      { s with reports := s.reports ++ [⟨t.spotifyId, none, "not_found", ""⟩] }
    | some (x, src) =>
      if s.existingIds.contains x then
        { s with reports := s.reports ++ [⟨t.spotifyId, some x, "skipped", src⟩] }
      else if env.addOk x then
        { s with existingIds := addUnique s.existingIds x,
                 items := addUnique s.items x,
                 addedTracks := s.addedTracks ++ [x],
                 reports := s.reports ++ [⟨t.spotifyId, some x, "added", src⟩] }
      else if src = "odesli" then
        match env.search t with
        | some b =>
          if b ≠ x then
            if env.addOk b then
              { s with existingIds := addUnique s.existingIds b,
                       items := addUnique s.items b,
                       addedTracks := s.addedTracks ++ [b],
                       reports := s.reports ++
                         [⟨t.spotifyId, some b, "added", "tidal_search_fallback"⟩] }
            else
              { s with reports :=
                  s.reports ++ [⟨t.spotifyId, some x, "failed_to_add", src⟩] }
          else
            { s with reports :=
                s.reports ++ [⟨t.spotifyId, some x, "failed_to_add", src⟩] }
        | none =>
          { s with reports :=
              s.reports ++ [⟨t.spotifyId, some x, "failed_to_add", src⟩] }
      else
        { s with reports :=
            s.reports ++ [⟨t.spotifyId, some x, "failed_to_add", src⟩] }

/-- The whole track loop of `migrate_playlist`. -/
def migrateRun (env : MigEnv) (s : MigState) (tracks : List SpTrack) : MigState :=
  tracks.foldl (processTrack env) s

/-- State produced by `find_or_reuse_tidal_playlist` for a playlist whose
remote item sequence is `items`: the id set and the metadata snapshot are
read off the items, `cat` giving each item's catalog metadata. -/
def initState (items : List String) (cat : String → TidalTrackMeta) : MigState :=
  { existingIds := items, meta := items.map cat, items := items,
    addedTracks := [], reports := [] }

/-- The loop state just before the `j`-th source track (0-based) is
processed. -/
def stateBefore (env : MigEnv) (s : MigState) (tracks : List SpTrack) (j : ℕ) :
    MigState :=
  migrateRun env s (tracks.take j)

/-! ## Report collector: `report.py` -/

/-- The two fields of `TrackReport` that `mark_playlist_downloaded`
reads and writes. -/
structure TrackReportRow where
  migrationStatus : String
  downloadStatus : String
deriving DecidableEq, Repr

/-- `PlaylistReportCollector.mark_playlist_downloaded(playlist_name,
success)` applied to the rows of one playlist. -/
def markPlaylistDownloaded (success : Bool) (tracks : List TrackReportRow) :
    List TrackReportRow :=
  let status := if success then "downloaded" else "failed"
  tracks.map (fun t =>
    if t.migrationStatus = "found" || t.migrationStatus = "added" then
      { t with downloadStatus := status }
    else t)

/-! ## Playlist downloader: `downloader.py` -/

/-- The mutable state of a `PlaylistDownloader`.  `hasExecutor` models
`self._executor is not None` (created in `__init__` iff
`enabled and parallel`); `futures` holds the uuids of dispatched downloads. -/
structure DownloaderState where
  enabled : Bool
  parallel : Bool
  hasExecutor : Bool
  futures : List String
  queuedPlaylists : List (String × String × ℕ)
  playlistNames : List (String × String)
  playlistTrackCounts : List (String × ℕ)
  completed : ℕ
  failed : ℕ
deriving DecidableEq, Repr

/-- `PlaylistDownloader.__init__`. -/
def initDownloader (enabled parallel : Bool) : DownloaderState :=
  { enabled := enabled, parallel := parallel, hasExecutor := enabled && parallel,
    futures := [], queuedPlaylists := [], playlistNames := [],
    playlistTrackCounts := [], completed := 0, failed := 0 }

/-- Python dict assignment `d[k] = v` on an association list. -/
def assocSet {β : Type} (d : List (String × β)) (k : String) (v : β) :
    List (String × β) :=
  (k, v) :: d.filter (fun p => !(p.1 == k))

/-- `PlaylistDownloader.add_playlist(uuid, name, track_count)`. -/
def addPlaylist (d : DownloaderState) (uuid name : String) (trackCount : ℕ) :
    DownloaderState :=
  if !d.enabled then d
  else
    let d1 := { d with playlistNames := assocSet d.playlistNames uuid name,
                       playlistTrackCounts := assocSet d.playlistTrackCounts uuid trackCount }
    if d.parallel && d.hasExecutor then { d1 with futures := d1.futures ++ [uuid] }
    else { d1 with queuedPlaylists := d1.queuedPlaylists ++ [(uuid, name, trackCount)] }

/-- `PlaylistDownloader.stats`: `(completed, failed, pending)` where pending
counts futures plus queued playlists. -/
def downloaderStats (d : DownloaderState) : ℕ × ℕ × ℕ :=
  (d.completed, d.failed, d.futures.length + d.queuedPlaylists.length)

/-! ## Universal-link rate limiter: `odesli/client.py` -/

/-- `[t for t in self.request_times if now - t < 60]`. -/
def pruneTimes (now : ℚ) (ts : List ℚ) : List ℚ :=
  ts.filter (fun t => decide (now - t < 60))

/-- A client's state: the current wall clock and the recorded
`request_times` (in append order). -/
structure RLState where
  clock : ℚ
  requestTimes : List ℚ
deriving DecidableEq, Repr

/-- Adversarial timing of one `_wait_for_rate_limit` call: `preCall` is the
wall-clock time that passed before the first `time.time()` read, `sleepExtra`
how much longer than requested `time.sleep` slept, `postRead` the time
between the last read and the final `time.time()` append.  All are
non-negative. -/
structure RLDelays where
  preCall : ℚ
  sleepExtra : ℚ
  postRead : ℚ
deriving DecidableEq, Repr

/-- `OdesliClient._wait_for_rate_limit` (rate limit 10/min, 60-second
window, 0.1-second buffer): prune, sleep when the window is full, re-prune,
record the new request time. -/
def waitForRateLimit (rateLimit : ℕ) (s : RLState) (d : RLDelays) : RLState :=
  let now := s.clock + d.preCall
  let ts := pruneTimes now s.requestTimes
  if rateLimit ≤ ts.length then
    let oldest := ts.headD 0
    let wait := 60 - (now - oldest) + 1/10
    if 0 < wait then
      let now2 := now + wait + d.sleepExtra
      let ts2 := pruneTimes now2 ts
      let stamp := now2 + d.postRead
      ⟨stamp, ts2 ++ [stamp]⟩
    else
      let stamp := now + d.postRead
      ⟨stamp, ts ++ [stamp]⟩
  else
    let stamp := now + d.postRead
    ⟨stamp, ts ++ [stamp]⟩

/-- Run a sequence of universal-link requests, recording every request
start time (the appended timestamps) in `hist`. -/
def rlRunAux (rateLimit : ℕ) : RLState → List ℚ → List RLDelays → RLState × List ℚ
  | s, hist, [] => (s, hist)
  | s, hist, d :: ds =>
    let s1 := waitForRateLimit rateLimit s d
    rlRunAux rateLimit s1 (hist ++ [s1.clock]) ds

/-- The request start times of a whole execution that begins at wall-clock
`c0` with no recorded requests. -/
def rlHistory (rateLimit : ℕ) (c0 : ℚ) (ds : List RLDelays) : List ℚ :=
  (rlRunAux rateLimit ⟨c0, []⟩ [] ds).2

/-! ## Playlist add protocol: `api.py`, `API.add_tracks_to_playlist` -/

/-- Externally visible actions of `add_tracks_to_playlist`: entity-tag
refreshes (`GET playlists/{uuid}` reading `ETag`), the batch POST, the
per-id POSTs of the fallback, and the `time.sleep(0.5)` calls. -/
inductive AddEvent
  | getEtag
  | postBatch (ids : List String)
  | postSingle (id : String)
  | sleepCall
deriving DecidableEq, Repr

/-- `response.status_code in [200, 201]`. -/
def statusOk (c : ℕ) : Bool := c == 200 || c == 201

/-- The one-by-one fallback loop (`for i, track_id in enumerate(track_ids)`),
threading the enumeration index `i`; returns the emitted events and the
collected `failed_tracks`. -/
def singleAddPass (status : String → ℕ) : List String → ℕ → List AddEvent × List String
  | [], _ => ([], [])
  | tid :: rest, i =>
    let evs := [AddEvent.getEtag, AddEvent.postSingle tid] ++
      (if (i + 1) % 10 == 0 then [AddEvent.sleepCall] else [])
    let fails := if statusOk (status tid) then [] else [tid]
    let (restEvs, restFails) := singleAddPass status rest (i + 1)
    (evs ++ restEvs, fails ++ restFails)

/-- Result of one `add_tracks_to_playlist` call: the emitted actions, and
`some failedIds` when an `ApiError` is raised (its userMessage lists exactly
those ids, in order). -/
structure AddOutcome where
  events : List AddEvent
  raisedFailedIds : Option (List String)
deriving DecidableEq, Repr

/-- `API.add_tracks_to_playlist`: initial tag fetch and batch POST; batch
success means status 200 or 201; otherwise the per-id fallback runs and an
error listing the failing ids is raised iff at least one id still failed. -/
def addTracksToPlaylist (batchStatus : ℕ) (singleStatus : String → ℕ)
    (trackIds : List String) : AddOutcome :=
  let pre := [AddEvent.getEtag, AddEvent.postBatch trackIds]
  if statusOk batchStatus then ⟨pre, none⟩
  else
    let (evs, fails) := singleAddPass singleStatus trackIds 0
    ⟨pre ++ evs, if fails.isEmpty then none else some fails⟩

/-- Declarative description of the fallback trace, following the spec's
words: for the `i`-th id, a tag refresh then its single POST, and a sleep
after every 10th single add. -/
def singleAddTraceSpec (ids : List String) : List AddEvent :=
  (ids.enum.map (fun p =>
    [AddEvent.getEtag, AddEvent.postSingle p.2] ++
      (if (p.1 + 1) % 10 == 0 then [AddEvent.sleepCall] else []))).flatten

/-! ## Duplicate removal: `playlist.py` -/

/-- Net effect of `fetch_playlist_tracks_with_indices` when the service
returns every item: the items in order, paired with zero-based indices
starting at `k`. -/
def withIndices (k : ℕ) : List String → List (ℕ × String)
  | [] => []
  | x :: rest => (k, x) :: withIndices (k + 1) rest

/-- The `seen_track_ids` loop of `find_duplicate_indices`. -/
def findDuplicateIndicesAux (seen : List String) :
    List (ℕ × String) → List (ℕ × String)
  | [] => []
  | (i, tid) :: rest =>
    if seen.contains tid then (i, tid) :: findDuplicateIndicesAux seen rest
    else findDuplicateIndicesAux (tid :: seen) rest

/-- `find_duplicate_indices(tracks_with_indices)`: every occurrence of a
track id after its first, with its index. -/
def findDuplicateIndices (tracks : List (ℕ × String)) : List (ℕ × String) :=
  findDuplicateIndicesAux [] tracks

/-- Insertion step of the descending sort by index
(`duplicates.sort(key=lambda x: x['index'], reverse=True)`). -/
def insDescByIdx (x : ℕ × String) : List (ℕ × String) → List (ℕ × String)
  | [] => [x]
  | y :: ys => if y.1 ≤ x.1 then x :: y :: ys else y :: insDescByIdx x ys

/-- Descending sort by index. -/
def sortDescByIdx : List (ℕ × String) → List (ℕ × String)
  | [] => []
  | x :: xs => insDescByIdx x (sortDescByIdx xs)

/-- `duplicates[i:i + batch_size]` slicing, by structural recursion on a
fuel argument (the list's length is always enough fuel for a positive
batch size). -/
def chunksOfAux {α : Type} (n : ℕ) : ℕ → List α → List (List α)
  | 0, _ => []
  | _, [] => []
  | fuel + 1, x :: rest => ((x :: rest).take n) :: chunksOfAux n fuel ((x :: rest).drop n)

/-- `[duplicates[i:i + batch_size] for i in range(0, len(duplicates),
batch_size)]`. -/
def chunksOf {α : Type} (n : ℕ) (l : List α) : List (List α) :=
  chunksOfAux n l.length l

/-- One `api.delete_playlist_tracks(playlist_uuid, batch_indices)` call:
the service removes the listed zero-based positions; with the indices given
in descending order this equals erasing them one at a time. -/
def eraseIdxBatch (items : List String) (batch : List ℕ) : List String :=
  batch.foldl List.eraseIdx items

/-- Result of `remove_duplicates_from_playlist`: the playlist contents after
the deletions and the index batches that were issued, in order. -/
structure CleanupResult where
  finalItems : List String
  batches : List (List ℕ)
deriving DecidableEq, Repr

/-- `remove_duplicates_from_playlist` (non-dry-run path): fetch indexed
items, find duplicates, sort them by index descending, delete in batches of
at most 50 indices. -/
def removeDuplicatesFromPlaylist (items : List String) : CleanupResult :=
  let tracksWithIndices := withIndices 0 items
  let duplicates := findDuplicateIndices tracksWithIndices
  let sorted := sortDescByIdx duplicates
  let batches := (chunksOf 50 sorted).map (fun b => b.map (fun p => p.1))
  ⟨batches.foldl eraseIdxBatch items, batches⟩

/-- The sequence keeping only the first occurrence of each id (the intended
result of duplicate removal). -/
def keepFirstAux (seen : List String) : List String → List String
  | [] => []
  | tid :: rest =>
    if seen.contains tid then keepFirstAux seen rest
    else tid :: keepFirstAux (tid :: seen) rest

/-- First-occurrence subsequence of a playlist. -/
def keepFirstOccurrence (l : List String) : List String := keepFirstAux [] l

/-! ## Entry checks of the migrate subcommand: `command.py` -/

/-- The credentials returned by `load_spotify_credentials` (fields may be
absent). -/
structure SpotifyCredentials where
  clientId : Option String
  clientSecret : Option String
deriving DecidableEq, Repr

/-- Python truthiness of an optional string. -/
def strTruthy : Option String → Bool
  | none => false
  | some s => !(s == "")

/-- What the subcommand entry does before any migration work. -/
inductive EntryOutcome
  | exitWith (reported : String) (code : ℕ)
  | proceed
deriving DecidableEq, Repr

/-- `typer.Exit()` is raised with its default exit code, which is 0. -/
def typerExitDefaultCode : ℕ := 0

/-- The credential and authentication checks at the entry of
`spotify_to_tidal` (both failure paths `raise typer.Exit()` with the default
code). -/
def spotifyToTidalEntry (credentials : SpotifyCredentials)
    (isAuthenticated : Bool) : EntryOutcome :=
  if !strTruthy credentials.clientId || !strTruthy credentials.clientSecret then
    .exitWith "Spotify credentials not found!" typerExitDefaultCode
  else if !isAuthenticated then
    .exitWith "Not logged in to Spotify!" typerExitDefaultCode
  else .proceed

/-! ## Concrete inputs used for witnesses and counterexamples -/

/-- A concrete environment: Odesli resolves Spotify track `s1` to Tidal id
`X`, the search finds nothing, every add succeeds. -/
def envW : MigEnv :=
  ⟨idNorm, fun sid => if sid = "s1" then some "X" else none, fun _ => none,
   fun _ => true⟩

/-- A degenerate catalog for concrete runs: each id maps to metadata with
that id, an empty title, no artists, duration 0. -/
def catW : String → TidalTrackMeta := fun i => ⟨i, "", [], 0⟩

/-- A concrete source track resolved by `envW.odesli`. -/
def trackW : SpTrack := ⟨"s1", "Song", ["A"], 200000⟩

/-- A second concrete source track, not resolved by anything. -/
def trackW2 : SpTrack := ⟨"s2", "Other", ["B"], 100000⟩

/-! ## Claim C3: remix parity -/

/-- The remix gate is the first test of `name_match`. -/
theorem nameMatch_false_of_remix_mismatch (tn : TextNorm) (a b : String)
    (h : isRemix a ≠ isRemix b) : nameMatch tn a b = false := by
  have hg : remixStatusMatches a b = false := by
    unfold remixStatusMatches
    cases ha : isRemix a <;> cases hb : isRemix b <;> simp_all
  unfold nameMatch
  rw [hg]
  rfl

theorem matchSpotify_none_of_all_remix_mismatch (tn : TextNorm) (t : SpTrack) :
    ∀ l : List TidalTrackMeta, (∀ c ∈ l, isRemix c.title ≠ isRemix t.name) →
      matchSpotifyToExistingTidal tn t l = none := by
  intro l
  induction l with
  | nil => intro _; rfl
  | cons c rest ih =>
    intro h
    have hc : isRemix c.title ≠ isRemix t.name := h c (List.mem_cons_self c rest)
    have hnm : nameMatch tn c.title t.name = false :=
      nameMatch_false_of_remix_mismatch tn c.title t.name hc
    unfold matchSpotifyToExistingTidal
    rw [hnm, Bool.and_false, Bool.false_and, if_neg Bool.false_ne_true]
    exact ih (fun c hm => h c (List.mem_cons_of_mem _ hm))

/-- C3.  Remix parity: whenever exactly one of the two titles contains the
whole word "remix" (case-insensitive), the title-match predicate
`name_match` used by metadata matching returns false; consequently a source
track is never metadata-matched to a playlist entry whose title differs in
remix status. -/
theorem c3_remix_parity :
    (∀ (tn : TextNorm) (a b : String), isRemix a ≠ isRemix b →
      nameMatch tn a b = false) ∧
    (∀ (tn : TextNorm) (t : SpTrack) (l : List TidalTrackMeta),
      (∀ c ∈ l, isRemix c.title ≠ isRemix t.name) →
      matchSpotifyToExistingTidal tn t l = none) := by
  constructor
  · exact nameMatch_false_of_remix_mismatch
  · exact fun tn t l h => matchSpotify_none_of_all_remix_mismatch tn t l h

/-- C3 witness: `"Blinding Lights (Chromatics Remix)"` contains the word
"remix", `"Blinding Lights"` does not, and the predicate rejects the pair. -/
theorem c3_remix_parity_witness :
    nameMatch idNorm "Blinding Lights (Chromatics Remix)" "Blinding Lights" = false ∧
    matchSpotifyToExistingTidal idNorm
      ⟨"s1", "Blinding Lights", ["The Weeknd"], 240000⟩
      [⟨"77", "Blinding Lights (Chromatics Remix)", ["The Weeknd"], 240⟩] = none := by
  constructor
  · exact c3_remix_parity.1 idNorm _ _ (by decide)
  · exact c3_remix_parity.2 idNorm _ _ (by decide)

/-! ## Structural lemmas about the migration loop -/

theorem addUnique_contains_self (l : List String) (x : String) :
    (addUnique l x).contains x = true := by
  unfold addUnique
  split
  · assumption
  · simp [List.elem_iff]

theorem addUnique_contains_mono (l : List String) (x y : String)
    (h : l.contains y = true) : (addUnique l x).contains y = true := by
  unfold addUnique
  split
  · exact h
  · simp only [List.elem_iff] at h ⊢
    exact List.mem_append_left _ h

theorem addUnique_contains_cases (l : List String) (x y : String)
    (h : (addUnique l x).contains y = true) : y = x ∨ l.contains y = true := by
  unfold addUnique at h
  by_cases hc : l.contains x = true
  · rw [if_pos hc] at h; exact Or.inr h
  · rw [if_neg hc] at h
    simp only [List.elem_iff] at h
    rcases List.mem_append.mp h with hm | hm
    · exact Or.inr (by simpa [List.elem_iff] using hm)
    · simp at hm; exact Or.inl hm

/-- Each loop iteration appends exactly one report row, whose outcome is one
of the four documented outcomes. -/
theorem processTrack_reports (env : MigEnv) (s : MigState) (t : SpTrack) :
    ∃ r : Report, (processTrack env s t).reports = s.reports ++ [r] ∧
      r.status ∈ (["added", "skipped", "failed_to_add", "not_found"] : List String) := by
  unfold processTrack
  cases hm : matchSpotifyToExistingTidal env.tn t s.meta with
  | some m => exact ⟨_, rfl, by simp⟩
  | none =>
    cases hr : resolveTrack env t with
    | none => exact ⟨_, rfl, by simp⟩
    | some p =>
      obtain ⟨x, src⟩ := p
      dsimp only
      by_cases h1 : s.existingIds.contains x = true
      · rw [if_pos h1]; exact ⟨_, rfl, by simp⟩
      · rw [if_neg h1]
        by_cases h2 : env.addOk x = true
        · rw [if_pos h2]; exact ⟨_, rfl, by simp⟩
        · rw [if_neg h2]
          by_cases h3 : src = "odesli"
          · rw [if_pos h3]
            cases hs : env.search t with
            | none => exact ⟨_, rfl, by simp⟩
            | some b =>
              dsimp only
              by_cases h4 : b ≠ x
              · rw [if_pos h4]
                by_cases h5 : env.addOk b = true
                · rw [if_pos h5]; exact ⟨_, rfl, by simp⟩
                · rw [if_neg h5]; exact ⟨_, rfl, by simp⟩
              · rw [if_neg h4]; exact ⟨_, rfl, by simp⟩
          · rw [if_neg h3]; exact ⟨_, rfl, by simp⟩

/-- Over the whole loop: one row per source track, in order, all with one of
the four outcomes. -/
theorem migrateRun_reports (env : MigEnv) :
    ∀ (tracks : List SpTrack) (s : MigState),
      ∃ rs : List Report, (migrateRun env s tracks).reports = s.reports ++ rs ∧
        rs.length = tracks.length ∧
        ∀ r ∈ rs, r.status ∈ (["added", "skipped", "failed_to_add", "not_found"] : List String) := by
  intro tracks
  induction tracks with
  | nil => exact fun s => ⟨[], by simp [migrateRun], rfl, by simp⟩
  | cons t ts ih =>
    intro s
    obtain ⟨r, hr, hrs⟩ := processTrack_reports env s t
    obtain ⟨rs, hfold, hlen, hall⟩ := ih (processTrack env s t)
    refine ⟨r :: rs, ?_, by simp [hlen], ?_⟩
    · show (migrateRun env (processTrack env s t) ts).reports = _
      rw [hfold, hr]
      simp
    · intro r2 hm
      rcases List.mem_cons.mp hm with h | h
      · exact h ▸ hrs
      · exact hall r2 h

/-- Partition of a report list by the four outcomes. -/
theorem countP_four_statuses :
    ∀ rs : List Report,
      (∀ r ∈ rs, r.status ∈ (["added", "skipped", "failed_to_add", "not_found"] : List String)) →
      rs.countP (fun r => r.status == "added") +
      rs.countP (fun r => r.status == "skipped") +
      rs.countP (fun r => r.status == "failed_to_add") +
      rs.countP (fun r => r.status == "not_found") = rs.length := by
  intro rs
  induction rs with
  | nil => intro _; rfl
  | cons r rest ih =>
    intro h
    have hr := h r (List.mem_cons_self r rest)
    have hrest := ih (fun x hx => h x (List.mem_cons_of_mem _ hx))
    simp only [List.countP_cons, List.length_cons]
    simp only [List.mem_cons, List.mem_singleton, List.not_mem_nil, or_false] at hr
    rcases hr with h1 | h1 | h1 | h1 <;> rw [h1] <;> simp <;> omega

/-- C2.  Report completeness: a migration of a playlist with `n` source
tracks creates exactly one report row per source track (`n` rows), every
row's migration outcome is one of added, skipped, failed_to_add,
not_found, and the counts of the four outcomes sum to `n`. -/
theorem c2_report_completeness (env : MigEnv) (cat : String → TidalTrackMeta)
    (items : List String) (tracks : List SpTrack) :
    (migrateRun env (initState items cat) tracks).reports.length = tracks.length ∧
    (∀ r ∈ (migrateRun env (initState items cat) tracks).reports,
      r.status ∈ (["added", "skipped", "failed_to_add", "not_found"] : List String)) ∧
    (migrateRun env (initState items cat) tracks).reports.countP
        (fun r => r.status == "added") +
      (migrateRun env (initState items cat) tracks).reports.countP
        (fun r => r.status == "skipped") +
      (migrateRun env (initState items cat) tracks).reports.countP
        (fun r => r.status == "failed_to_add") +
      (migrateRun env (initState items cat) tracks).reports.countP
        (fun r => r.status == "not_found") = tracks.length := by
  obtain ⟨rs, hrep, hlen, hall⟩ := migrateRun_reports env tracks (initState items cat)
  have hinit : (initState items cat).reports = [] := rfl
  rw [hrep, hinit, List.nil_append]
  exact ⟨hlen, hall, by rw [countP_four_statuses rs hall]; exact hlen⟩

/-- A first metadata match survives appending entries to the snapshot (new
items are appended at the end of the playlist). -/
theorem matchSpotify_append_of_some (tn : TextNorm) (t : SpTrack) :
    ∀ (l ext : List TidalTrackMeta) (m : String),
      matchSpotifyToExistingTidal tn t l = some m →
      matchSpotifyToExistingTidal tn t (l ++ ext) = some m := by
  intro l
  induction l with
  | nil =>
    intro ext m h
    exact absurd h (by simp [matchSpotifyToExistingTidal])
  | cons c rest ih =>
    intro ext m h
    rw [List.cons_append]
    unfold matchSpotifyToExistingTidal at h ⊢
    by_cases hc : (durationMatch c.duration t.durationMs 2 &&
        nameMatch tn c.title t.name && artistMatch tn c.artists t.artists) = true
    · rw [if_pos hc] at h ⊢; exact h
    · rw [if_neg hc] at h ⊢; exact ih ext m h

/-- Branch shape: metadata match hit (step 0 of the loop). -/
theorem processTrack_skip_meta (env : MigEnv) (s : MigState) (t : SpTrack)
    (m : String) (hm : matchSpotifyToExistingTidal env.tn t s.meta = some m) :
    processTrack env s t =
      { s with reports :=
          s.reports ++ [⟨t.spotifyId, some m, "skipped", "metadata_match"⟩] } := by
  unfold processTrack
  rw [hm]

/-- Branch shape: cascade found nothing. -/
theorem processTrack_notfound (env : MigEnv) (s : MigState) (t : SpTrack)
    (hm : matchSpotifyToExistingTidal env.tn t s.meta = none)
    (hr : resolveTrack env t = none) :
    processTrack env s t =
      { s with reports := s.reports ++ [⟨t.spotifyId, none, "not_found", ""⟩] } := by
  unfold processTrack
  rw [hm, hr]

/-- Branch shape: resolved id already present in the id set. -/
theorem processTrack_skip_existing (env : MigEnv) (s : MigState) (t : SpTrack)
    (x src : String) (hm : matchSpotifyToExistingTidal env.tn t s.meta = none)
    (hr : resolveTrack env t = some (x, src))
    (hx : s.existingIds.contains x = true) :
    processTrack env s t =
      { s with reports := s.reports ++ [⟨t.spotifyId, some x, "skipped", src⟩] } := by
  unfold processTrack
  rw [hm, hr]
  dsimp only
  rw [if_pos hx]

/-- Branch shape: resolved id absent and the add succeeds. -/
theorem processTrack_added (env : MigEnv) (s : MigState) (t : SpTrack)
    (x src : String) (hm : matchSpotifyToExistingTidal env.tn t s.meta = none)
    (hr : resolveTrack env t = some (x, src))
    (hx : s.existingIds.contains x = false) (ha : env.addOk x = true) :
    processTrack env s t =
      { s with existingIds := addUnique s.existingIds x,
               items := addUnique s.items x,
               addedTracks := s.addedTracks ++ [x],
               reports := s.reports ++ [⟨t.spotifyId, some x, "added", src⟩] } := by
  unfold processTrack
  rw [hm, hr]
  dsimp only
  rw [if_neg (by rw [hx]; simp), if_pos ha]

/-- The metadata snapshot is never modified by the loop body. -/
theorem processTrack_meta (env : MigEnv) (s : MigState) (t : SpTrack) :
    (processTrack env s t).meta = s.meta := by
  unfold processTrack
  cases hm : matchSpotifyToExistingTidal env.tn t s.meta with
  | some m => rfl
  | none =>
    cases hr : resolveTrack env t with
    | none => rfl
    | some p =>
      obtain ⟨x, src⟩ := p
      dsimp only
      by_cases h1 : s.existingIds.contains x = true
      · rw [if_pos h1]
      · rw [if_neg h1]
        by_cases h2 : env.addOk x = true
        · rw [if_pos h2]
        · rw [if_neg h2]
          by_cases h3 : src = "odesli"
          · rw [if_pos h3]
            cases hs : env.search t with
            | none => rfl
            | some b =>
              dsimp only
              by_cases h4 : b ≠ x
              · rw [if_pos h4]
                by_cases h5 : env.addOk b = true
                · rw [if_pos h5]
                · rw [if_neg h5]
              · rw [if_neg h4]
          · rw [if_neg h3]

/-- The id set only ever grows during the loop. -/
theorem processTrack_ids_mono (env : MigEnv) (s : MigState) (t : SpTrack)
    (x : String) (h : s.existingIds.contains x = true) :
    (processTrack env s t).existingIds.contains x = true := by
  unfold processTrack
  cases hm : matchSpotifyToExistingTidal env.tn t s.meta with
  | some m => exact h
  | none =>
    cases hr : resolveTrack env t with
    | none => exact h
    | some p =>
      obtain ⟨y, src⟩ := p
      dsimp only
      by_cases h1 : s.existingIds.contains y = true
      · rw [if_pos h1]; exact h
      · rw [if_neg h1]
        by_cases h2 : env.addOk y = true
        · rw [if_pos h2]; exact addUnique_contains_mono _ _ _ h
        · rw [if_neg h2]
          by_cases h3 : src = "odesli"
          · rw [if_pos h3]
            cases hs : env.search t with
            | none => exact h
            | some b =>
              dsimp only
              by_cases h4 : b ≠ y
              · rw [if_pos h4]
                by_cases h5 : env.addOk b = true
                · rw [if_pos h5]; exact addUnique_contains_mono _ _ _ h
                · rw [if_neg h5]; exact h
              · rw [if_neg h4]; exact h
          · rw [if_neg h3]; exact h

theorem migrateRun_ids_mono (env : MigEnv) :
    ∀ (tracks : List SpTrack) (s : MigState) (x : String),
      s.existingIds.contains x = true →
      (migrateRun env s tracks).existingIds.contains x = true := by
  intro tracks
  induction tracks with
  | nil => exact fun s x h => h
  | cons t ts ih =>
    intro s x h
    exact ih (processTrack env s t) x (processTrack_ids_mono env s t x h)

/-- The remote playlist only ever gains items during the loop (new items
are appended). -/
theorem processTrack_items_extend (env : MigEnv) (s : MigState) (t : SpTrack) :
    ∃ ext : List String, (processTrack env s t).items = s.items ++ ext := by
  unfold processTrack
  cases hm : matchSpotifyToExistingTidal env.tn t s.meta with
  | some m => exact ⟨[], by simp⟩
  | none =>
    cases hr : resolveTrack env t with
    | none => exact ⟨[], by simp⟩
    | some p =>
      obtain ⟨y, src⟩ := p
      dsimp only
      by_cases h1 : s.existingIds.contains y = true
      · rw [if_pos h1]; exact ⟨[], by simp⟩
      · rw [if_neg h1]
        by_cases h2 : env.addOk y = true
        · rw [if_pos h2]
          unfold addUnique
          by_cases hc : s.items.contains y = true
          · rw [if_pos hc]; exact ⟨[], by simp⟩
          · rw [if_neg hc]; exact ⟨[y], rfl⟩
        · rw [if_neg h2]
          by_cases h3 : src = "odesli"
          · rw [if_pos h3]
            cases hs : env.search t with
            | none => exact ⟨[], by simp⟩
            | some b =>
              dsimp only
              by_cases h4 : b ≠ y
              · rw [if_pos h4]
                by_cases h5 : env.addOk b = true
                · rw [if_pos h5]
                  unfold addUnique
                  by_cases hc : s.items.contains b = true
                  · rw [if_pos hc]; exact ⟨[], by simp⟩
                  · rw [if_neg hc]; exact ⟨[b], rfl⟩
                · rw [if_neg h5]; exact ⟨[], by simp⟩
              · rw [if_neg h4]; exact ⟨[], by simp⟩
          · rw [if_neg h3]; exact ⟨[], by simp⟩

theorem migrateRun_items_extend (env : MigEnv) :
    ∀ (tracks : List SpTrack) (s : MigState),
      ∃ ext : List String, (migrateRun env s tracks).items = s.items ++ ext := by
  intro tracks
  induction tracks with
  | nil => exact fun s => ⟨[], by simp [migrateRun]⟩
  | cons t ts ih =>
    intro s
    obtain ⟨e1, h1⟩ := processTrack_items_extend env s t
    obtain ⟨e2, h2⟩ := ih (processTrack env s t)
    exact ⟨e1 ++ e2, by
      show (migrateRun env (processTrack env s t) ts).items = _
      rw [h2, h1, List.append_assoc]⟩

/-- Every id in the id set is an item of the playlist (the invariant
relating `existing_track_ids` to the remote item sequence). -/
theorem processTrack_ids_in_items (env : MigEnv) (s : MigState) (t : SpTrack)
    (hinv : ∀ y, s.existingIds.contains y = true → s.items.contains y = true) :
    ∀ y, (processTrack env s t).existingIds.contains y = true →
      (processTrack env s t).items.contains y = true := by
  unfold processTrack
  cases hm : matchSpotifyToExistingTidal env.tn t s.meta with
  | some m => exact hinv
  | none =>
    cases hr : resolveTrack env t with
    | none => exact hinv
    | some p =>
      obtain ⟨x, src⟩ := p
      dsimp only
      by_cases h1 : s.existingIds.contains x = true
      · rw [if_pos h1]; exact hinv
      · rw [if_neg h1]
        by_cases h2 : env.addOk x = true
        · rw [if_pos h2]
          intro y hy
          rcases addUnique_contains_cases _ _ _ hy with hxy | hmem
          · rw [hxy]; exact addUnique_contains_self _ _
          · exact addUnique_contains_mono _ _ _ (hinv y hmem)
        · rw [if_neg h2]
          by_cases h3 : src = "odesli"
          · rw [if_pos h3]
            cases hs : env.search t with
            | none => exact hinv
            | some b =>
              dsimp only
              by_cases h4 : b ≠ x
              · rw [if_pos h4]
                by_cases h5 : env.addOk b = true
                · rw [if_pos h5]
                  intro y hy
                  rcases addUnique_contains_cases _ _ _ hy with hxy | hmem
                  · rw [hxy]; exact addUnique_contains_self _ _
                  · exact addUnique_contains_mono _ _ _ (hinv y hmem)
                · rw [if_neg h5]; exact hinv
              · rw [if_neg h4]; exact hinv
          · rw [if_neg h3]; exact hinv

theorem migrateRun_ids_in_items (env : MigEnv) :
    ∀ (tracks : List SpTrack) (s : MigState),
      (∀ y, s.existingIds.contains y = true → s.items.contains y = true) →
      ∀ y, (migrateRun env s tracks).existingIds.contains y = true →
        (migrateRun env s tracks).items.contains y = true := by
  intro tracks
  induction tracks with
  | nil => exact fun s h => h
  | cons t ts ih =>
    intro s hinv
    exact ih (processTrack env s t) (processTrack_ids_in_items env s t hinv)

/-- In a re-run, a track whose resolved id is already in the id set is
recorded as skipped (either the metadata match fires, or the duplicate
check does). -/
theorem rerun_head_skip (env : MigEnv) (addOk2 : String → Bool) (S : MigState)
    (t : SpTrack) (x src : String)
    (hr : resolveTrack env t = some (x, src))
    (hxS : S.existingIds.contains x = true) :
    ∃ row : Report, row.status = "skipped" ∧
      processTrack { env with addOk := addOk2 } S t =
        { S with reports := S.reports ++ [row] } := by
  cases hm2 : matchSpotifyToExistingTidal env.tn t S.meta with
  | some m2 =>
    exact ⟨_, rfl, processTrack_skip_meta { env with addOk := addOk2 } S t m2 hm2⟩
  | none =>
    exact ⟨_, rfl, processTrack_skip_existing { env with addOk := addOk2 } S t x src hm2 hr hxS⟩

/-- Core of C1: over any suffix of the track list, if the first run (with
every add succeeding) produced only added/skipped rows, then the second run
from a state whose snapshot extends the first run's and whose id set
contains every id of the first run's final id set changes nothing except
appending skipped rows. -/
theorem rerun_all_skipped (env : MigEnv) (addOk2 : String → Bool) :
    ∀ (tracks : List SpTrack) (s S : MigState) (ext : List TidalTrackMeta),
      (∀ x, env.addOk x = true) →
      S.meta = s.meta ++ ext →
      (∀ x, (migrateRun env s tracks).existingIds.contains x = true →
        S.existingIds.contains x = true) →
      (∀ r ∈ (migrateRun env s tracks).reports,
        r.status = "added" ∨ r.status = "skipped") →
      ∃ rs : List Report,
        migrateRun { env with addOk := addOk2 } S tracks =
          { S with reports := S.reports ++ rs } ∧
        ∀ r ∈ rs, r.status = "skipped" := by
  intro tracks
  induction tracks with
  | nil =>
    intro s S ext hadd hmeta hids hrep
    exact ⟨[], by simp [migrateRun], by simp⟩
  | cons t ts ih =>
    intro s S ext hadd hmeta hids hrep
    have hfold1 : migrateRun env s (t :: ts) =
        migrateRun env (processTrack env s t) ts := rfl
    rw [hfold1] at hids hrep
    cases hm : matchSpotifyToExistingTidal env.tn t s.meta with
    | some m =>
      have hstep1 := processTrack_skip_meta env s t m hm
      have hm2 : matchSpotifyToExistingTidal env.tn t S.meta = some m := by
        rw [hmeta]; exact matchSpotify_append_of_some env.tn t s.meta ext m hm
      have hstep2 := processTrack_skip_meta { env with addOk := addOk2 } S t m hm2
      obtain ⟨rs, hrun, hall⟩ := ih (processTrack env s t)
        { S with reports :=
            S.reports ++ [⟨t.spotifyId, some m, "skipped", "metadata_match"⟩] } ext
        hadd (by rw [hstep1]; exact hmeta) hids hrep
      refine ⟨⟨t.spotifyId, some m, "skipped", "metadata_match"⟩ :: rs, ?_, ?_⟩
      · show migrateRun { env with addOk := addOk2 }
          (processTrack { env with addOk := addOk2 } S t) ts = _
        rw [hstep2, hrun]
        simp
      · intro r hrm
        rcases List.mem_cons.mp hrm with h | h
        · rw [h]
        · exact hall r h
    | none =>
      cases hr : resolveTrack env t with
      | none =>
        exfalso
        have hstep1 := processTrack_notfound env s t hm hr
        obtain ⟨rs0, hpre, _, _⟩ :=
          migrateRun_reports env ts (processTrack env s t)
        have hmem : (⟨t.spotifyId, none, "not_found", ""⟩ : Report) ∈
            (migrateRun env (processTrack env s t) ts).reports := by
          rw [hpre, hstep1]; simp
        rcases hrep _ hmem with h | h <;> simp at h
      | some p =>
        obtain ⟨x, src⟩ := p
        by_cases hx : s.existingIds.contains x = true
        · -- first run skipped the track: its id was already present
          have hstep1 := processTrack_skip_existing env s t x src hm hr hx
          have hxF : (migrateRun env (processTrack env s t) ts).existingIds.contains x = true :=
            migrateRun_ids_mono env ts _ x (by rw [hstep1]; exact hx)
          obtain ⟨row, hrow, hstep2⟩ := rerun_head_skip env addOk2 S t x src hr (hids x hxF)
          obtain ⟨rs, hrun, hall⟩ := ih (processTrack env s t)
            { S with reports := S.reports ++ [row] } ext hadd (by rw [hstep1]; exact hmeta) hids hrep
          refine ⟨row :: rs, ?_, ?_⟩
          · show migrateRun { env with addOk := addOk2 }
              (processTrack { env with addOk := addOk2 } S t) ts = _
            rw [hstep2, hrun]
            simp
          · intro r hrm
            rcases List.mem_cons.mp hrm with h | h
            · rw [h]; exact hrow
            · exact hall r h
        · -- first run added the track (every add succeeds)
          have hx0 : s.existingIds.contains x = false := by
            cases h : s.existingIds.contains x
            · rfl
            · exact absurd h hx
          have hstep1 := processTrack_added env s t x src hm hr hx0 (hadd x)
          have hxF : (migrateRun env (processTrack env s t) ts).existingIds.contains x = true :=
            migrateRun_ids_mono env ts _ x
              (by rw [hstep1]; exact addUnique_contains_self _ _)
          obtain ⟨row, hrow, hstep2⟩ := rerun_head_skip env addOk2 S t x src hr (hids x hxF)
          obtain ⟨rs, hrun, hall⟩ := ih (processTrack env s t)
            { S with reports := S.reports ++ [row] } ext hadd (by rw [hstep1]; exact hmeta) hids hrep
          refine ⟨row :: rs, ?_, ?_⟩
          · show migrateRun { env with addOk := addOk2 }
              (processTrack { env with addOk := addOk2 } S t) ts = _
            rw [hstep2, hrun]
            simp
          · intro r hrm
            rcases List.mem_cons.mp hrm with h | h
            · rw [h]; exact hrow
            · exact hall r h

/-- C1.  Re-migration is idempotent: with the external resolvers modelled
as fixed functions (so both runs see the same ids), every add of the first
run succeeding and the first run recording only added/skipped rows (the
first run completed), a second run over the same source tracks — whatever
its adds would do — adds zero tracks, leaves the target playlist's item
sequence (hence totalItems) unchanged, and records every source track as
skipped. -/
theorem c1_remigration_idempotent (env : MigEnv) (cat : String → TidalTrackMeta)
    (addOk2 : String → Bool) (items1 : List String) (tracks : List SpTrack)
    (hadd : ∀ x, env.addOk x = true)
    (hcomplete : ∀ r ∈ (migrateRun env (initState items1 cat) tracks).reports,
      r.status = "added" ∨ r.status = "skipped") :
    (migrateRun { env with addOk := addOk2 }
      (initState (migrateRun env (initState items1 cat) tracks).items cat)
      tracks).addedTracks = [] ∧
    (migrateRun { env with addOk := addOk2 }
      (initState (migrateRun env (initState items1 cat) tracks).items cat)
      tracks).items = (migrateRun env (initState items1 cat) tracks).items ∧
    (migrateRun { env with addOk := addOk2 }
      (initState (migrateRun env (initState items1 cat) tracks).items cat)
      tracks).items.length =
      (migrateRun env (initState items1 cat) tracks).items.length ∧
    ∀ r ∈ (migrateRun { env with addOk := addOk2 }
      (initState (migrateRun env (initState items1 cat) tracks).items cat)
      tracks).reports, r.status = "skipped" := by
  obtain ⟨extItems, hext⟩ := migrateRun_items_extend env tracks (initState items1 cat)
  have hmeta : (initState (migrateRun env (initState items1 cat) tracks).items cat).meta =
      (initState items1 cat).meta ++ extItems.map cat := by
    show (migrateRun env (initState items1 cat) tracks).items.map cat = _
    rw [hext]
    show (items1 ++ extItems).map cat = items1.map cat ++ extItems.map cat
    exact List.map_append cat items1 extItems
  have hids : ∀ x,
     (migrateRun env (initState items1 cat) tracks).existingIds.contains x = true →
     (initState (migrateRun env (initState items1 cat) tracks).items cat).existingIds.contains
        x = true := by
    intro x hx
    exact migrateRun_ids_in_items env tracks (initState items1 cat) (fun y h => h) x hx
  obtain ⟨rs, hrun, hall⟩ := rerun_all_skipped env addOk2 tracks
    (initState items1 cat)
    (initState (migrateRun env (initState items1 cat) tracks).items cat)
    (extItems.map cat) hadd hmeta hids hcomplete
  rw [hrun]
  exact ⟨rfl, rfl, rfl, fun r hrm => hall r (by simpa [initState] using hrm)⟩

/-- C1 witness: a one-track playlist, first run with every add succeeding. -/
theorem c1_remigration_idempotent_witness :
    (∀ r ∈ (migrateRun envW (initState [] catW) [trackW]).reports,
      r.status = "added" ∨ r.status = "skipped") ∧
    ((migrateRun { envW with addOk := fun _ => false }
      (initState (migrateRun envW (initState [] catW) [trackW]).items catW)
      [trackW]).addedTracks = [] ∧
    (migrateRun { envW with addOk := fun _ => false }
      (initState (migrateRun envW (initState [] catW) [trackW]).items catW)
      [trackW]).items = (migrateRun envW (initState [] catW) [trackW]).items ∧
    (migrateRun { envW with addOk := fun _ => false }
      (initState (migrateRun envW (initState [] catW) [trackW]).items catW)
      [trackW]).items.length =
      (migrateRun envW (initState [] catW) [trackW]).items.length ∧
    ∀ r ∈ (migrateRun { envW with addOk := fun _ => false }
      (initState (migrateRun envW (initState [] catW) [trackW]).items catW)
      [trackW]).reports, r.status = "skipped") :=
  ⟨by decide, c1_remigration_idempotent envW catW (fun _ => false) [] [trackW]
    (fun _ => rfl) (by decide)⟩

theorem migrateRun_meta (env : MigEnv) :
    ∀ (tracks : List SpTrack) (s : MigState), (migrateRun env s tracks).meta = s.meta := by
  intro tracks
  induction tracks with
  | nil => exact fun s => rfl
  | cons t ts ih =>
    intro s
    show (migrateRun env (processTrack env s t) ts).meta = s.meta
    rw [ih (processTrack env s t), processTrack_meta]

/-- Splitting the loop at position `i ≤ j`. -/
theorem stateBefore_decomp (env : MigEnv) (s : MigState) (tracks : List SpTrack)
    (i j : ℕ) (hij : i ≤ j) :
    stateBefore env s tracks j =
      migrateRun env (stateBefore env s tracks i) ((tracks.take j).drop i) := by
  unfold stateBefore migrateRun
  rw [← List.foldl_append]
  congr 1
  have h1 : (tracks.take j).take i = tracks.take i := by
    rw [List.take_take, min_eq_left hij]
  calc tracks.take j
      = (tracks.take j).take i ++ (tracks.take j).drop i :=
        (List.take_append_drop i (tracks.take j)).symm
    _ = tracks.take i ++ (tracks.take j).drop i := by rw [h1]

theorem stateBefore_ids_mono (env : MigEnv) (s : MigState) (tracks : List SpTrack)
    (i j : ℕ) (hij : i ≤ j) (x : String)
    (h : (stateBefore env s tracks i).existingIds.contains x = true) :
    (stateBefore env s tracks j).existingIds.contains x = true := by
  rw [stateBefore_decomp env s tracks i j hij]
  exact migrateRun_ids_mono env _ _ x h

theorem stateBefore_meta (env : MigEnv) (s : MigState) (tracks : List SpTrack)
    (j : ℕ) : (stateBefore env s tracks j).meta = s.meta :=
  migrateRun_meta env (tracks.take j) s

/-- One step of the loop at position `k`. -/
theorem stateBefore_succ (env : MigEnv) (s : MigState) (tracks : List SpTrack)
    (k : ℕ) (hk : k < tracks.length) :
    stateBefore env s tracks (k + 1) =
      processTrack env (stateBefore env s tracks k) tracks[k] := by
  unfold stateBefore migrateRun
  rw [List.take_succ, List.getElem?_eq_getElem hk]
  show List.foldl _ s (tracks.take k ++ [tracks[k]]) = _
  rw [List.foldl_append]
  rfl

/-- When a step's report says `added` with id `X`, that step inserted `X`
into the id set. -/
theorem processTrack_added_tid_in_ids (env : MigEnv) (s : MigState) (t : SpTrack)
    (r : Report) (X : String)
    (h : (processTrack env s t).reports = s.reports ++ [r])
    (hst : r.status = "added") (hid : r.tidalId = some X) :
    (processTrack env s t).existingIds.contains X = true := by
  have hrow : ∀ row : Report, s.reports ++ [row] = s.reports ++ [r] → row = r := by
    intro row hEq
    have := List.append_cancel_left hEq
    simpa using this
  unfold processTrack at h ⊢
  cases hm : matchSpotifyToExistingTidal env.tn t s.meta with
  | some m =>
    rw [hm] at h
    try dsimp only at h
    have := hrow _ h
    rw [← this] at hst
    simp at hst
  | none =>
    rw [hm] at h
    try dsimp only at h ⊢
    cases hr : resolveTrack env t with
    | none =>
      rw [hr] at h
      try dsimp only at h
      have := hrow _ h
      rw [← this] at hst
      simp at hst
    | some p =>
      obtain ⟨x, src⟩ := p
      rw [hr] at h
      try dsimp only at h ⊢
      by_cases h1 : s.existingIds.contains x = true
      · rw [if_pos h1] at h
        try dsimp only at h
        have := hrow _ h
        rw [← this] at hst
        simp at hst
      · rw [if_neg h1] at h ⊢
        by_cases h2 : env.addOk x = true
        · rw [if_pos h2] at h ⊢
          try dsimp only at h ⊢
          have hr2 := hrow _ h
          have hX : X = x := by
            rw [← hr2] at hid
            simpa using hid.symm
          rw [hX]
          exact addUnique_contains_self _ _
        · rw [if_neg h2] at h ⊢
          by_cases h3 : src = "odesli"
          · rw [if_pos h3] at h ⊢
            cases hs : env.search t with
            | none =>
              rw [hs] at h
              try dsimp only at h
              have := hrow _ h
              rw [← this] at hst
              simp at hst
            | some b =>
              rw [hs] at h
              try dsimp only at h ⊢
              by_cases h4 : b ≠ x
              · rw [if_pos h4] at h ⊢
                by_cases h5 : env.addOk b = true
                · rw [if_pos h5] at h ⊢
                  try dsimp only at h ⊢
                  have hr2 := hrow _ h
                  have hX : X = b := by
                    rw [← hr2] at hid
                    simpa using hid.symm
                  rw [hX]
                  exact addUnique_contains_self _ _
                · rw [if_neg h5] at h
                  try dsimp only at h
                  have := hrow _ h
                  rw [← this] at hst
                  simp at hst
              · rw [if_neg h4] at h
                try dsimp only at h
                have := hrow _ h
                rw [← this] at hst
                simp at hst
          · rw [if_neg h3] at h
            try dsimp only at h
            have := hrow _ h
            rw [← this] at hst
            simp at hst

theorem stateBefore_reports_length (env : MigEnv) (s : MigState)
    (hs : s.reports = []) (tracks : List SpTrack) (k : ℕ) (hk : k ≤ tracks.length) :
    (stateBefore env s tracks k).reports.length = k := by
  obtain ⟨rs, hrep, hlen, _⟩ := migrateRun_reports env (tracks.take k) s
  show (migrateRun env s (tracks.take k)).reports.length = k
  rw [hrep, hs, List.nil_append, hlen, List.length_take]
  exact min_eq_left hk

/-- C4 counterexample: the first track is added with id `X`, yet the
snapshot that step 1 of the cascade (the metadata match) consults for the
next track does not contain `X` — the metadata list is never extended
during a run, only the id set is. -/
theorem c4_counterexample :
    (migrateRun envW (initState [] catW) [trackW, trackW2]).reports[0]? =
      some ⟨"s1", some "X", "added", "odesli"⟩ ∧
    ((stateBefore envW (initState [] catW) [trackW, trackW2] 1).meta.map
      TidalTrackMeta.id).contains "X" = false := by
  decide

/-- C4 (amended).  If the cascade returns target id `X` for the `k`-th
source track and the add succeeds, then for every later track `j > k` the
in-memory id set (`existing_track_ids`, consulted by the duplicate check
before adding) contains `X`; the metadata list that step 1 of the cascade
matches against stays the initial snapshot and is not extended. -/
theorem c4_amended_snapshot_visibility (env : MigEnv)
    (cat : String → TidalTrackMeta) (items : List String)
    (tracks : List SpTrack) (k : ℕ) (X : String) (r : Report)
    (hk : (migrateRun env (initState items cat) tracks).reports[k]? = some r)
    (hst : r.status = "added") (hid : r.tidalId = some X) :
    ∀ j, k < j →
      (stateBefore env (initState items cat) tracks j).existingIds.contains X = true ∧
      (stateBefore env (initState items cat) tracks j).meta = items.map cat := by
  intro j hj
  obtain ⟨rsAll, hrepAll, hlenAll, _⟩ :=
    migrateRun_reports env tracks (initState items cat)
  have hkl : k < tracks.length := by
    have h1 : k < (migrateRun env (initState items cat) tracks).reports.length :=
      (List.getElem?_eq_some.mp hk).1
    rw [hrepAll] at h1
    have h0 : (initState items cat).reports = [] := rfl
    rw [h0, List.nil_append, hlenAll] at h1
    exact h1
  have hdec : migrateRun env (initState items cat) tracks =
      migrateRun env (stateBefore env (initState items cat) tracks (k + 1))
        (tracks.drop (k + 1)) := by
    unfold stateBefore migrateRun
    rw [← List.foldl_append, List.take_append_drop]
  obtain ⟨rs2, hrep2, _, _⟩ := migrateRun_reports env (tracks.drop (k + 1))
    (stateBefore env (initState items cat) tracks (k + 1))
  have hstep := stateBefore_succ env (initState items cat) tracks k hkl
  obtain ⟨rK, hrK, _⟩ :=
    processTrack_reports env (stateBefore env (initState items cat) tracks k) tracks[k]
  have hlenK : (stateBefore env (initState items cat) tracks k).reports.length = k :=
    stateBefore_reports_length env (initState items cat) rfl tracks k (le_of_lt hkl)
  have hfinal : (migrateRun env (initState items cat) tracks).reports =
      (stateBefore env (initState items cat) tracks k).reports ++ ([rK] ++ rs2) := by
    rw [hdec, hrep2, hstep, hrK, List.append_assoc]
  have hrEq : r = rK := by
    rw [hfinal, List.getElem?_append_right hlenK.le] at hk
    rw [hlenK, Nat.sub_self] at hk
    simpa using hk.symm
  have hX : (processTrack env (stateBefore env (initState items cat) tracks k)
      tracks[k]).existingIds.contains X = true :=
    processTrack_added_tid_in_ids env _ _ rK X hrK (hrEq ▸ hst) (hrEq ▸ hid)
  constructor
  · exact stateBefore_ids_mono env (initState items cat) tracks (k + 1) j hj X
      (by rw [hstep]; exact hX)
  · exact stateBefore_meta env (initState items cat) tracks j

/-- C4 witness: the added id is visible to the duplicate check of the next
track, while the metadata snapshot stays the (empty) initial one. -/
theorem c4_amended_snapshot_visibility_witness :
    ((migrateRun envW (initState [] catW) [trackW, trackW2]).reports[0]? =
      some ⟨"s1", some "X", "added", "odesli"⟩) ∧
    ((stateBefore envW (initState [] catW) [trackW, trackW2] 1).existingIds.contains
        "X" = true ∧
      (stateBefore envW (initState [] catW) [trackW, trackW2] 1).meta =
        List.map catW []) :=
  ⟨by decide, c4_amended_snapshot_visibility envW catW [] [trackW, trackW2] 0 "X"
    ⟨"s1", some "X", "added", "odesli"⟩ (by decide) rfl rfl 1 (by decide)⟩

/-- C5.  The code marks only rows whose migration outcome is literally
`"found"` or `"added"`; a row recorded as `"skipped"` by the live migration
loop keeps its previous download outcome even when the playlist download
succeeded, contradicting the claim that added *and skipped* rows are marked.
The evaluation below exhibits both behaviours at the failing input. -/
theorem c5_mark_downloaded_code_bug :
    markPlaylistDownloaded true [⟨"skipped", "not_attempted"⟩] =
      [⟨"skipped", "not_attempted"⟩] ∧
    markPlaylistDownloaded true [⟨"added", "not_attempted"⟩] =
      [⟨"added", "downloaded"⟩] ∧
    markPlaylistDownloaded false [⟨"added", "not_attempted"⟩] =
      [⟨"added", "failed"⟩] ∧
    markPlaylistDownloaded true [⟨"found", "not_attempted"⟩] =
      [⟨"found", "downloaded"⟩] := by
  decide

/-- C6.  Both startup failure paths report the error but raise
`typer.Exit()` with its default code, so the process exits 0, not with a
non-zero code as the claim requires; a run that passes the checks
proceeds (and a normal completion exits 0). -/
theorem c6_exit_code_bug :
    spotifyToTidalEntry ⟨none, none⟩ true =
      .exitWith "Spotify credentials not found!" 0 ∧
    spotifyToTidalEntry ⟨some "id", some "secret"⟩ false =
      .exitWith "Not logged in to Spotify!" 0 ∧
    spotifyToTidalEntry ⟨some "id", some "secret"⟩ true = .proceed := by
  decide

/-- C10.  With `enabled=False`, `add_playlist` returns at once: the whole
downloader state (futures, queue, name and track-count maps, counters) is
untouched by any sequence of calls, and the stats stay `(0, 0, 0)`. -/
theorem c10_disabled_downloader_noop (parallel : Bool)
    (calls : List (String × String × ℕ)) :
    calls.foldl (fun d c => addPlaylist d c.1 c.2.1 c.2.2)
      (initDownloader false parallel) = initDownloader false parallel ∧
    downloaderStats (calls.foldl (fun d c => addPlaylist d c.1 c.2.1 c.2.2)
      (initDownloader false parallel)) = (0, 0, 0) := by
  have hstep : ∀ (c : String × String × ℕ),
      addPlaylist (initDownloader false parallel) c.1 c.2.1 c.2.2 =
        initDownloader false parallel := by
    intro c
    unfold addPlaylist
    rw [if_pos]
    show (!(initDownloader false parallel).enabled) = true
    rfl
  have hfold : calls.foldl (fun d c => addPlaylist d c.1 c.2.1 c.2.2)
      (initDownloader false parallel) = initDownloader false parallel := by
    induction calls with
    | nil => rfl
    | cons c cs ih =>
      show cs.foldl _ (addPlaylist (initDownloader false parallel) c.1 c.2.1 c.2.2) = _
      rw [hstep c]
      exact ih
  exact ⟨hfold, by rw [hfold]; rfl⟩

/-! ## Duplicate-removal lemmas -/

theorem chunksOfAux_flatten {α : Type} (n : ℕ) (hn : 1 ≤ n) :
    ∀ (fuel : ℕ) (l : List α), l.length ≤ fuel → (chunksOfAux n fuel l).flatten = l := by
  intro fuel
  induction fuel with
  | zero =>
    intro l hl
    have : l = [] := List.eq_nil_of_length_eq_zero (Nat.le_zero.mp hl)
    rw [this]
    rfl
  | succ m ih =>
    intro l hl
    match l with
    | [] => rfl
    | x :: rest =>
      show ((x :: rest).take n :: chunksOfAux n m ((x :: rest).drop n)).flatten = x :: rest
      rw [List.flatten_cons, ih ((x :: rest).drop n) ?_, List.take_append_drop]
      rw [List.length_drop]
      simp only [List.length_cons] at hl ⊢
      omega

theorem chunksOfAux_length_le {α : Type} (n : ℕ) :
    ∀ (fuel : ℕ) (l : List α) (b : List α), b ∈ chunksOfAux n fuel l → b.length ≤ n := by
  intro fuel
  induction fuel with
  | zero => intro l b hb; simp [chunksOfAux] at hb
  | succ m ih =>
    intro l b hb
    match l with
    | [] => simp [chunksOfAux] at hb
    | x :: rest =>
      rcases List.mem_cons.mp hb with h | h
      · rw [h]
        simpa using List.length_take_le n (x :: rest)
      · exact ih _ b h

/-- Shifting the index origin of the duplicate scan. -/
theorem findDupAux_shift :
    ∀ (l : List String) (seen : List String) (k : ℕ),
      findDuplicateIndicesAux seen (withIndices (k + 1) l) =
        (findDuplicateIndicesAux seen (withIndices k l)).map
          (fun p => (p.1 + 1, p.2)) := by
  intro l
  induction l with
  | nil => intro seen k; rfl
  | cons a rest ih =>
    intro seen k
    show findDuplicateIndicesAux seen ((k + 1, a) :: withIndices (k + 2) rest) =
      (findDuplicateIndicesAux seen ((k, a) :: withIndices (k + 1) rest)).map _
    unfold findDuplicateIndicesAux
    by_cases hc : seen.contains a = true
    · rw [if_pos hc, if_pos hc, List.map_cons, ih seen (k + 1), ih seen k]
    · rw [if_neg hc, if_neg hc, ih (a :: seen) (k + 1), ih (a :: seen) k]

/-- The duplicate scan returns indices that are at least the origin and
strictly increasing. -/
theorem findDupAux_bounds :
    ∀ (l : List String) (seen : List String) (k : ℕ),
      (∀ p ∈ findDuplicateIndicesAux seen (withIndices k l), k ≤ p.1) ∧
      (findDuplicateIndicesAux seen (withIndices k l)).Pairwise
        (fun p q => p.1 < q.1) := by
  intro l
  induction l with
  | nil => intro seen k; exact ⟨by simp [withIndices, findDuplicateIndicesAux], by
      simp [withIndices, findDuplicateIndicesAux]⟩
  | cons a rest ih =>
    intro seen k
    show (∀ p ∈ findDuplicateIndicesAux seen ((k, a) :: withIndices (k + 1) rest), k ≤ p.1) ∧
      (findDuplicateIndicesAux seen ((k, a) :: withIndices (k + 1) rest)).Pairwise _
    unfold findDuplicateIndicesAux
    by_cases hc : seen.contains a = true
    · rw [if_pos hc]
      obtain ⟨hlb, hpw⟩ := ih seen (k + 1)
      constructor
      · intro p hp
        rcases List.mem_cons.mp hp with h | h
        · rw [h]
        · exact le_of_lt (Nat.lt_of_lt_of_le (Nat.lt_succ_self k) (hlb p h))
      · exact List.pairwise_cons.mpr
          ⟨fun q hq => Nat.lt_of_lt_of_le (Nat.lt_succ_self k) (hlb q hq), hpw⟩
    · rw [if_neg hc]
      obtain ⟨hlb, hpw⟩ := ih (a :: seen) (k + 1)
      exact ⟨fun p hp => le_of_lt (Nat.lt_of_lt_of_le (Nat.lt_succ_self k) (hlb p hp)), hpw⟩

theorem insDescByIdx_all_lt (p : ℕ × String) :
    ∀ M : List (ℕ × String), (∀ q ∈ M, p.1 < q.1) → insDescByIdx p M = M ++ [p] := by
  intro M
  induction M with
  | nil => intro _; rfl
  | cons y ys ih =>
    intro h
    unfold insDescByIdx
    rw [if_neg, ih (fun q hq => h q (List.mem_cons_of_mem _ hq))]
    · rfl
    · exact Nat.not_le.mpr (h y (List.mem_cons_self y ys))

/-- A descending sort of a strictly increasing list is its reverse. -/
theorem sortDesc_eq_reverse :
    ∀ L : List (ℕ × String), L.Pairwise (fun p q => p.1 < q.1) →
      sortDescByIdx L = L.reverse := by
  intro L
  induction L with
  | nil => intro _; rfl
  | cons p R ih =>
    intro h
    obtain ⟨hall, hR⟩ := List.pairwise_cons.mp h
    show insDescByIdx p (sortDescByIdx R) = (p :: R).reverse
    rw [ih hR, insDescByIdx_all_lt p R.reverse
      (fun q hq => hall q (List.mem_reverse.mp hq)), List.reverse_cons]

/-- Erasing positive positions of `a :: rest` keeps the head and erases the
shifted positions of the tail. -/
theorem eraseFold_cons (a : String) :
    ∀ (ds : List ℕ) (rest : List String), (∀ d ∈ ds, 1 ≤ d) →
      ds.foldl List.eraseIdx (a :: rest) =
        a :: (ds.map (fun d => d - 1)).foldl List.eraseIdx rest := by
  intro ds
  induction ds with
  | nil => intro rest _; rfl
  | cons d ds2 ih =>
    intro rest h
    match d, h d (List.mem_cons_self d ds2) with
    | e + 1, _ =>
      show ds2.foldl List.eraseIdx ((a :: rest).eraseIdx (e + 1)) = _
      rw [show (a :: rest).eraseIdx (e + 1) = a :: rest.eraseIdx e from rfl]
      rw [ih (rest.eraseIdx e) (fun x hx => h x (List.mem_cons_of_mem _ hx))]
      rfl

/-- Deleting the descending duplicate positions keeps exactly the first
occurrence of every id. -/
theorem erase_sorted_dups :
    ∀ (l : List String) (seen : List String),
      ((sortDescByIdx (findDuplicateIndicesAux seen (withIndices 0 l))).map
        (fun p => p.1)).foldl List.eraseIdx l = keepFirstAux seen l := by
  intro l
  induction l with
  | nil => intro seen; rfl
  | cons a rest ih =>
    intro seen
    have hd0 := (findDupAux_bounds rest seen 0).2
    have hd0r := (findDupAux_bounds rest (a :: seen) 0).2
    have hwhole := (findDupAux_bounds (a :: rest) seen 0).2
    show ((sortDescByIdx (findDuplicateIndicesAux seen
        ((0, a) :: withIndices 1 rest))).map (fun p => p.1)).foldl
        List.eraseIdx (a :: rest) = keepFirstAux seen (a :: rest)
    by_cases hc : seen.contains a = true
    · -- position 0 is itself a duplicate
      have hshift := findDupAux_shift rest seen 0
      simp only [Nat.zero_add] at hshift
      have hdup : findDuplicateIndicesAux seen ((0, a) :: withIndices 1 rest) =
          (0, a) :: (findDuplicateIndicesAux seen (withIndices 0 rest)).map
            (fun p => (p.1 + 1, p.2)) := by
        show (if seen.contains a = true then
            (0, a) :: findDuplicateIndicesAux seen (withIndices 1 rest)
          else findDuplicateIndicesAux (a :: seen) (withIndices 1 rest)) = _
        rw [if_pos hc, hshift]
      have hsort : sortDescByIdx (findDuplicateIndicesAux seen
          ((0, a) :: withIndices 1 rest)) =
          ((findDuplicateIndicesAux seen (withIndices 0 rest)).map
            (fun p => (p.1 + 1, p.2))).reverse ++ [(0, a)] := by
        rw [sortDesc_eq_reverse _ (by
          show (findDuplicateIndicesAux seen (withIndices 0 (a :: rest))).Pairwise _
          exact hwhole), hdup, List.reverse_cons]
      rw [hsort, List.map_append, List.foldl_append]
      have hmap1 : (((findDuplicateIndicesAux seen (withIndices 0 rest)).map
          (fun p => (p.1 + 1, p.2))).reverse.map (fun p => p.1)) =
          (((findDuplicateIndicesAux seen (withIndices 0 rest)).map
            (fun p => p.1)).map (fun d => d + 1)).reverse := by
        rw [List.map_reverse, List.map_map, List.map_map]
        rfl
      rw [hmap1]
      rw [eraseFold_cons a _ _ (by
        intro d hd
        rcases List.mem_reverse.mp hd with hd2
        rcases List.mem_map.mp hd2 with ⟨e, _, he⟩
        omega)]
      have hmap2 : ((((findDuplicateIndicesAux seen (withIndices 0 rest)).map
          (fun p => p.1)).map (fun d => d + 1)).reverse.map (fun d => d - 1)) =
          ((findDuplicateIndicesAux seen (withIndices 0 rest)).map
            (fun p => p.1)).reverse := by
        rw [List.map_reverse, List.map_map]
        simp
      rw [hmap2]
      show (a :: ((findDuplicateIndicesAux seen (withIndices 0 rest)).map
          (fun p => p.1)).reverse.foldl List.eraseIdx rest).eraseIdx 0 =
        keepFirstAux seen (a :: rest)
      rw [List.eraseIdx_cons_zero]
      have hrev : ((findDuplicateIndicesAux seen (withIndices 0 rest)).map
          (fun p => p.1)).reverse = (sortDescByIdx (findDuplicateIndicesAux seen
            (withIndices 0 rest))).map (fun p => p.1) := by
        rw [sortDesc_eq_reverse _ hd0, List.map_reverse]
      rw [hrev, ih seen]
      exact (show keepFirstAux seen (a :: rest) = keepFirstAux seen rest by
        show (if seen.contains a = true then keepFirstAux seen rest
          else a :: keepFirstAux (a :: seen) rest) = _
        rw [if_pos hc]).symm
    · -- position 0 is a first occurrence
      have hshift := findDupAux_shift rest (a :: seen) 0
      simp only [Nat.zero_add] at hshift
      have hdup : findDuplicateIndicesAux seen ((0, a) :: withIndices 1 rest) =
          (findDuplicateIndicesAux (a :: seen) (withIndices 0 rest)).map
            (fun p => (p.1 + 1, p.2)) := by
        show (if seen.contains a = true then
            (0, a) :: findDuplicateIndicesAux seen (withIndices 1 rest)
          else findDuplicateIndicesAux (a :: seen) (withIndices 1 rest)) = _
        rw [if_neg hc, hshift]
      have hsort : sortDescByIdx (findDuplicateIndicesAux seen
          ((0, a) :: withIndices 1 rest)) =
          ((findDuplicateIndicesAux (a :: seen) (withIndices 0 rest)).map
            (fun p => (p.1 + 1, p.2))).reverse := by
        rw [sortDesc_eq_reverse _ (by
          show (findDuplicateIndicesAux seen (withIndices 0 (a :: rest))).Pairwise _
          exact hwhole), hdup]
      rw [hsort]
      have hmap1 : (((findDuplicateIndicesAux (a :: seen) (withIndices 0 rest)).map
          (fun p => (p.1 + 1, p.2))).reverse.map (fun p => p.1)) =
          (((findDuplicateIndicesAux (a :: seen) (withIndices 0 rest)).map
            (fun p => p.1)).map (fun d => d + 1)).reverse := by
        rw [List.map_reverse, List.map_map, List.map_map]
        rfl
      rw [hmap1]
      rw [eraseFold_cons a _ _ (by
        intro d hd
        rcases List.mem_reverse.mp hd with hd2
        rcases List.mem_map.mp hd2 with ⟨e, _, he⟩
        omega)]
      have hmap2 : ((((findDuplicateIndicesAux (a :: seen) (withIndices 0 rest)).map
          (fun p => p.1)).map (fun d => d + 1)).reverse.map (fun d => d - 1)) =
          ((findDuplicateIndicesAux (a :: seen) (withIndices 0 rest)).map
            (fun p => p.1)).reverse := by
        rw [List.map_reverse, List.map_map]
        simp
      rw [hmap2]
      have hrev : ((findDuplicateIndicesAux (a :: seen) (withIndices 0 rest)).map
          (fun p => p.1)).reverse = (sortDescByIdx (findDuplicateIndicesAux (a :: seen)
            (withIndices 0 rest))).map (fun p => p.1) := by
        rw [sortDesc_eq_reverse _ hd0r, List.map_reverse]
      rw [hrev, ih (a :: seen)]
      exact (show keepFirstAux seen (a :: rest) = a :: keepFirstAux (a :: seen) rest by
        show (if seen.contains a = true then keepFirstAux seen rest
          else a :: keepFirstAux (a :: seen) rest) = _
        rw [if_neg hc]).symm

/-- C8.  Duplicate removal keeps the first occurrence of each target id and
removes every later occurrence; the issued deletions are zero-based indices
in strictly descending order, batched in groups of at most 50; and on
`[100, 200, 100, 300, 200]` the single issued batch is `[4, 2]` and the
remaining items are `[100, 200, 300]`. -/
theorem c8_duplicate_removal (items : List String) :
    (removeDuplicatesFromPlaylist items).finalItems = keepFirstOccurrence items ∧
    (removeDuplicatesFromPlaylist items).batches.flatten.Pairwise
      (fun a b => b < a) ∧
    (∀ b ∈ (removeDuplicatesFromPlaylist items).batches, b.length ≤ 50) ∧
    removeDuplicatesFromPlaylist ["100", "200", "100", "300", "200"] =
      ⟨["100", "200", "300"], [[4, 2]]⟩ := by
  have hpw : (findDuplicateIndices (withIndices 0 items)).Pairwise
      (fun p q => p.1 < q.1) := (findDupAux_bounds items [] 0).2
  have hflat : ((chunksOf 50 (sortDescByIdx (findDuplicateIndices
      (withIndices 0 items)))).map (fun b => b.map (fun p => p.1))).flatten =
      (sortDescByIdx (findDuplicateIndices (withIndices 0 items))).map
        (fun p => p.1) := by
    rw [← List.map_flatten]
    rw [show (chunksOf 50 (sortDescByIdx (findDuplicateIndices
        (withIndices 0 items)))).flatten =
        sortDescByIdx (findDuplicateIndices (withIndices 0 items)) from
      chunksOfAux_flatten 50 (by omega) _ _ le_rfl]
  refine ⟨?_, ?_, ?_, by decide⟩
  · show ((chunksOf 50 (sortDescByIdx (findDuplicateIndices
        (withIndices 0 items)))).map (fun b => b.map (fun p => p.1))).foldl
        eraseIdxBatch items = keepFirstOccurrence items
    show ((chunksOf 50 (sortDescByIdx (findDuplicateIndices
        (withIndices 0 items)))).map (fun b => b.map (fun p => p.1))).foldl
        (fun acc l => l.foldl List.eraseIdx acc) items = keepFirstOccurrence items
    rw [← List.foldl_flatten, hflat]
    exact erase_sorted_dups items []
  · show ((chunksOf 50 (sortDescByIdx (findDuplicateIndices
        (withIndices 0 items)))).map (fun b => b.map (fun p => p.1))).flatten.Pairwise
        (fun a b => b < a)
    rw [hflat, sortDesc_eq_reverse _ hpw, List.map_reverse]
    exact List.pairwise_reverse.mpr (List.pairwise_map.mpr hpw)
  · intro b hb
    have hb2 : b ∈ (chunksOf 50 (sortDescByIdx (findDuplicateIndices
        (withIndices 0 items)))).map (fun c => c.map (fun p => p.1)) := hb
    rcases List.mem_map.mp hb2 with ⟨c, hc, hbc⟩
    rw [← hbc, List.length_map]
    exact chunksOfAux_length_le 50 _ _ c hc

/-- C9 counterexample: a 204 response to the batch POST is 2xx, yet
`add_tracks_to_playlist` only treats 200 and 201 as success — on 204 it does
not return normally after the batch POST but runs the one-by-one fallback,
issuing a single add. -/
theorem c9_counterexample :
    (200 ≤ 204 ∧ 204 < 300) ∧
    AddEvent.postSingle "7" ∈ (addTracksToPlaylist 204 (fun _ => 200) ["7"]).events ∧
    (addTracksToPlaylist 204 (fun _ => 200) ["7"]).events ≠
      [AddEvent.getEtag, AddEvent.postBatch ["7"]] := by
  decide

theorem singleAddPass_events (st : String → ℕ) :
    ∀ (ids : List String) (i : ℕ),
      (singleAddPass st ids i).1 =
        ((ids.enumFrom i).map (fun p =>
          [AddEvent.getEtag, AddEvent.postSingle p.2] ++
            (if (p.1 + 1) % 10 == 0 then [AddEvent.sleepCall] else []))).flatten := by
  intro ids
  induction ids with
  | nil => intro i; rfl
  | cons tid rest ih =>
    intro i
    rcases hsp : singleAddPass st rest (i + 1) with ⟨revs, rfails⟩
    have h2 := ih (i + 1)
    rw [hsp] at h2
    have h1 : (singleAddPass st (tid :: rest) i).1 =
        ([AddEvent.getEtag, AddEvent.postSingle tid] ++
          (if (i + 1) % 10 == 0 then [AddEvent.sleepCall] else [])) ++ revs := by
      simp only [singleAddPass, hsp]
    rw [h1]
    show _ = (((i, tid) :: rest.enumFrom (i + 1)).map (fun p =>
      [AddEvent.getEtag, AddEvent.postSingle p.2] ++
        (if (p.1 + 1) % 10 == 0 then [AddEvent.sleepCall] else []))).flatten
    rw [List.map_cons, List.flatten_cons]
    exact congrArg _ h2

theorem singleAddPass_fails (st : String → ℕ) :
    ∀ (ids : List String) (i : ℕ),
      (singleAddPass st ids i).2 =
        ids.filter (fun tid => !statusOk (st tid)) := by
  intro ids
  induction ids with
  | nil => intro i; rfl
  | cons tid rest ih =>
    intro i
    rcases hsp : singleAddPass st rest (i + 1) with ⟨revs, rfails⟩
    have h2 := ih (i + 1)
    rw [hsp] at h2
    dsimp only at h2
    have h1 : (singleAddPass st (tid :: rest) i).2 =
        (if statusOk (st tid) then [] else [tid]) ++ rfails := by
      simp only [singleAddPass, hsp]
    rw [h1, h2]
    by_cases hok : statusOk (st tid) = true
    · rw [if_pos hok, List.nil_append, List.filter_cons_of_neg (by simp [hok])]
    · rw [if_neg hok, List.filter_cons_of_pos (by simp at hok; simp [hok])]
      rfl

/-- C9 (amended).  `add_tracks_to_playlist` returns normally exactly when
the batch POST returns 200 or 201 (not every 2xx); on any other status it
adds each id singly — refreshing the entity tag right before every single
POST and sleeping after every 10th single add, as the declarative trace
`singleAddTraceSpec` spells out — and raises an error iff at least one id
still fails, the error listing exactly the failing ids in order. -/
theorem c9_amended_add_fallback (batchStatus : ℕ) (singleStatus : String → ℕ)
    (trackIds : List String) :
    (statusOk batchStatus = true →
      addTracksToPlaylist batchStatus singleStatus trackIds =
        ⟨[AddEvent.getEtag, AddEvent.postBatch trackIds], none⟩) ∧
    (statusOk batchStatus = false →
      (addTracksToPlaylist batchStatus singleStatus trackIds).events =
        [AddEvent.getEtag, AddEvent.postBatch trackIds] ++
          singleAddTraceSpec trackIds ∧
      (addTracksToPlaylist batchStatus singleStatus trackIds).raisedFailedIds =
        (if (trackIds.filter (fun tid => !statusOk (singleStatus tid))).isEmpty
         then none
         else some (trackIds.filter (fun tid => !statusOk (singleStatus tid))))) := by
  have hp : singleAddPass singleStatus trackIds 0 =
      (singleAddTraceSpec trackIds,
        trackIds.filter (fun tid => !statusOk (singleStatus tid))) := by
    have h1 := singleAddPass_events singleStatus trackIds 0
    have h2 := singleAddPass_fails singleStatus trackIds 0
    exact Prod.ext h1 h2
  constructor
  · intro hok
    unfold addTracksToPlaylist
    rw [if_pos hok]
  · intro hbad
    unfold addTracksToPlaylist
    rw [if_neg (by rw [hbad]; simp), hp]
    exact ⟨rfl, rfl⟩

/-- C9 witness for the amended statement: a 200 batch returns at once; a 500
batch on ids `7` and `8` (the single add of `8` failing) issues the
documented fallback trace and raises an error listing exactly `8`. -/
theorem c9_amended_add_fallback_witness :
    (addTracksToPlaylist 200 (fun _ => 404) ["7"] =
      ⟨[AddEvent.getEtag, AddEvent.postBatch ["7"]], none⟩) ∧
    ((addTracksToPlaylist 500 (fun tid => if tid = "8" then 404 else 200)
        ["7", "8"]).events =
      [AddEvent.getEtag, AddEvent.postBatch ["7", "8"]] ++
        singleAddTraceSpec ["7", "8"] ∧
     (addTracksToPlaylist 500 (fun tid => if tid = "8" then 404 else 200)
        ["7", "8"]).raisedFailedIds =
      (if (["7", "8"].filter (fun tid =>
          !statusOk (if tid = "8" then 404 else 200))).isEmpty
       then none
       else some (["7", "8"].filter (fun tid =>
          !statusOk (if tid = "8" then 404 else 200))))) :=
  ⟨(c9_amended_add_fallback 200 (fun _ => 404) ["7"]).1 (by decide),
   (c9_amended_add_fallback 500 (fun tid => if tid = "8" then 404 else 200)
     ["7", "8"]).2 (by decide)⟩

/-! ## Rate-limiter lemmas -/

/-- Filtering by a later window is filtering by the earlier window first. -/
theorem window_filter_mono (hist : List ℚ) (c u : ℚ) (hcu : c ≤ u) :
    hist.filter (fun t => decide (u - t < 60)) =
      (hist.filter (fun t => decide (c - t < 60))).filter
        (fun t => decide (u - t < 60)) := by
  rw [List.filter_filter]
  apply List.filter_congr
  intro t _
  by_cases h : u - t < 60
  · have hc : c - t < 60 := lt_of_le_of_lt (by linarith) h
    simp [h, hc]
  · simp [h]

/-- What survives in a later window is inside any prune at a later clock. -/
theorem window_sublist_prune (hist : List ℚ) (c u : ℚ) (l : List ℚ) (hcu : c ≤ u)
    (h : List.Sublist (hist.filter (fun t => decide (c - t < 60))) l) :
    List.Sublist (hist.filter (fun t => decide (u - t < 60))) (pruneTimes u l) := by
  rw [window_filter_mono hist c u hcu]
  exact List.Sublist.filter _ h

theorem window_sublist_weaken (hist : List ℚ) (c u : ℚ) (l : List ℚ) (hcu : c ≤ u)
    (h : List.Sublist (hist.filter (fun t => decide (c - t < 60))) l) :
    List.Sublist (hist.filter (fun t => decide (u - t < 60))) l := by
  exact List.Sublist.trans (window_sublist_prune hist c u l hcu h)
    (List.filter_sublist l)

/-- Branch equation: window not full. -/
theorem waitForRateLimit_not_full (rateLimit : ℕ) (s : RLState) (d : RLDelays)
    (h : ¬ rateLimit ≤ (pruneTimes (s.clock + d.preCall) s.requestTimes).length) :
    waitForRateLimit rateLimit s d =
      ⟨s.clock + d.preCall + d.postRead,
       pruneTimes (s.clock + d.preCall) s.requestTimes ++
         [s.clock + d.preCall + d.postRead]⟩ := by
  unfold waitForRateLimit
  rw [if_neg h]

/-- Branch equation: window full and a positive wait is requested. -/
theorem waitForRateLimit_full (rateLimit : ℕ) (s : RLState) (d : RLDelays)
    (h : rateLimit ≤ (pruneTimes (s.clock + d.preCall) s.requestTimes).length)
    (hw : 0 < 60 - (s.clock + d.preCall -
      (pruneTimes (s.clock + d.preCall) s.requestTimes).headD 0) + 1 / 10) :
    waitForRateLimit rateLimit s d =
      ⟨s.clock + d.preCall + (60 - (s.clock + d.preCall -
          (pruneTimes (s.clock + d.preCall) s.requestTimes).headD 0) + 1 / 10) +
          d.sleepExtra + d.postRead,
       pruneTimes (s.clock + d.preCall + (60 - (s.clock + d.preCall -
           (pruneTimes (s.clock + d.preCall) s.requestTimes).headD 0) + 1 / 10) +
           d.sleepExtra)
         (pruneTimes (s.clock + d.preCall) s.requestTimes) ++
         [s.clock + d.preCall + (60 - (s.clock + d.preCall -
           (pruneTimes (s.clock + d.preCall) s.requestTimes).headD 0) + 1 / 10) +
           d.sleepExtra + d.postRead]⟩ := by
  unfold waitForRateLimit
  rw [if_pos h, if_pos hw]

/-- Recording one more request time: if the pre-append list holds every
history entry of the new window and has at most 9 entries, the invariant
and the 10-per-window bound carry over. -/
theorem rl_append_inv (hist : List ℚ) (sClock stamp : ℚ) (pre : List ℚ)
    (hg1 : sClock ≤ stamp)
    (hcl : ∀ t ∈ hist, t ≤ sClock)
    (hg2 : List.Sublist (hist.filter (fun t => decide (stamp - t < 60))) pre)
    (hg3 : pre.length ≤ 9)
    (hcnt : ∀ a : ℚ, hist.countP (fun t => decide (a < t ∧ t ≤ a + 60)) ≤ 10) :
    (∀ t ∈ hist ++ [stamp], t ≤ stamp) ∧
    List.Sublist ((hist ++ [stamp]).filter (fun t => decide (stamp - t < 60)))
      (pre ++ [stamp]) ∧
    (pre ++ [stamp]).length ≤ 10 ∧
    (∀ a : ℚ, (hist ++ [stamp]).countP
      (fun t => decide (a < t ∧ t ≤ a + 60)) ≤ 10) := by
  refine ⟨?_, ?_, ?_, ?_⟩
  · intro t ht
    rcases List.mem_append.mp ht with h | h
    · exact le_trans (hcl t h) hg1
    · simp at h
      rw [h]
  · rw [List.filter_append]
    have hstamp : ([stamp].filter (fun t => decide (stamp - t < 60))) = [stamp] := by
      simp
    rw [hstamp]
    exact List.Sublist.append hg2 (List.Sublist.refl _)
  · rw [List.length_append]
    simp only [List.length_singleton]
    omega
  · intro a
    rw [List.countP_append]
    by_cases hw : a < stamp ∧ stamp ≤ a + 60
    · have h1 : hist.countP (fun t => decide (a < t ∧ t ≤ a + 60)) ≤
          hist.countP (fun t => decide (stamp - t < 60)) := by
        apply List.countP_mono_left
        intro t ht hdec
        have hp : a < t ∧ t ≤ a + 60 := of_decide_eq_true hdec
        exact decide_eq_true (by linarith [hw.2, hp.1])
      have h2 : hist.countP (fun t => decide (stamp - t < 60)) ≤ 9 := by
        rw [List.countP_eq_length_filter]
        exact le_trans (List.Sublist.length_le hg2) hg3
      have h3 : ([stamp].countP (fun t => decide (a < t ∧ t ≤ a + 60))) ≤ 1 := by
        rw [List.countP_cons]
        simp
        split <;> simp
      omega
    · have h3 : ([stamp].countP (fun t => decide (a < t ∧ t ≤ a + 60))) = 0 := by
        rw [List.countP_cons]
        simp [hw]
      rw [h3]
      have := hcnt a
      omega

/-- One `_wait_for_rate_limit` call preserves the invariant and the
10-per-window bound on the recorded history. -/
theorem rl_step (s : RLState) (hist : List ℚ) (d : RLDelays)
    (hd1 : 0 ≤ d.preCall) (hd2 : 0 ≤ d.sleepExtra) (hd3 : 0 ≤ d.postRead)
    (hcl : ∀ t ∈ hist, t ≤ s.clock)
    (hsub : List.Sublist (hist.filter (fun t => decide (s.clock - t < 60)))
      s.requestTimes)
    (hlen : s.requestTimes.length ≤ 10)
    (hcnt : ∀ a : ℚ, hist.countP (fun t => decide (a < t ∧ t ≤ a + 60)) ≤ 10) :
    (∀ t ∈ hist ++ [(waitForRateLimit 10 s d).clock],
      t ≤ (waitForRateLimit 10 s d).clock) ∧
    List.Sublist ((hist ++ [(waitForRateLimit 10 s d).clock]).filter
      (fun t => decide ((waitForRateLimit 10 s d).clock - t < 60)))
      (waitForRateLimit 10 s d).requestTimes ∧
    (waitForRateLimit 10 s d).requestTimes.length ≤ 10 ∧
    (∀ a : ℚ, (hist ++ [(waitForRateLimit 10 s d).clock]).countP
      (fun t => decide (a < t ∧ t ≤ a + 60)) ≤ 10) := by
  by_cases hfull : 10 ≤ (pruneTimes (s.clock + d.preCall) s.requestTimes).length
  · -- window full: sleep, re-prune, then record
    have hwq : s.clock + d.preCall -
        (pruneTimes (s.clock + d.preCall) s.requestTimes).headD 0 < 60 := by
      cases hc : pruneTimes (s.clock + d.preCall) s.requestTimes with
      | nil => rw [hc] at hfull; simp at hfull
      | cons h0 tl =>
        have hmem : h0 ∈ pruneTimes (s.clock + d.preCall) s.requestTimes := by
          rw [hc]; exact List.mem_cons_self h0 tl
        have := of_decide_eq_true (List.mem_filter.mp hmem).2
        simpa using this
    have hw : 0 < 60 - (s.clock + d.preCall -
        (pruneTimes (s.clock + d.preCall) s.requestTimes).headD 0) + 1 / 10 := by
      linarith
    rw [waitForRateLimit_full 10 s d hfull hw]
    dsimp only
    refine rl_append_inv hist s.clock _ _ (by linarith) hcl ?_ ?_ hcnt
    · refine window_sublist_weaken hist
        (s.clock + d.preCall + (60 - (s.clock + d.preCall -
          (pruneTimes (s.clock + d.preCall) s.requestTimes).headD 0) + 1 / 10) +
          d.sleepExtra) _ _ (by linarith) ?_
      refine window_sublist_prune hist (s.clock + d.preCall) _ _ (by linarith) ?_
      exact window_sublist_prune hist s.clock (s.clock + d.preCall) _
        (by linarith) hsub
    · cases hc : pruneTimes (s.clock + d.preCall) s.requestTimes with
      | nil => rw [hc] at hfull; simp at hfull
      | cons h0 tl =>
        have hlen10 : (pruneTimes (s.clock + d.preCall) s.requestTimes).length ≤ 10 :=
          le_trans (List.length_filter_le _ _) hlen
        rw [hc] at hlen10 hwq
        simp only [List.headD_cons] at hwq ⊢
        show (List.filter _ (h0 :: tl)).length ≤ 9
        rw [List.filter_cons_of_neg]
        · have := List.length_filter_le
            (fun t => decide (s.clock + d.preCall + (60 - (s.clock + d.preCall - h0) +
              1 / 10) + d.sleepExtra - t < 60)) tl
          simp only [List.length_cons] at hlen10
          omega
        · simp only [decide_eq_true_eq]
          intro hlt
          linarith
  · -- window not full: record directly
    rw [waitForRateLimit_not_full 10 s d hfull]
    dsimp only
    refine rl_append_inv hist s.clock _ _ (by linarith) hcl ?_ ?_ hcnt
    · refine window_sublist_weaken hist (s.clock + d.preCall) _ _ (by linarith) ?_
      exact window_sublist_prune hist s.clock (s.clock + d.preCall) _
        (by linarith) hsub
    · omega

theorem rl_run_bound :
    ∀ (ds : List RLDelays) (s : RLState) (hist : List ℚ),
      (∀ d ∈ ds, 0 ≤ d.preCall ∧ 0 ≤ d.sleepExtra ∧ 0 ≤ d.postRead) →
      (∀ t ∈ hist, t ≤ s.clock) →
      List.Sublist (hist.filter (fun t => decide (s.clock - t < 60)))
        s.requestTimes →
      s.requestTimes.length ≤ 10 →
      (∀ a : ℚ, hist.countP (fun t => decide (a < t ∧ t ≤ a + 60)) ≤ 10) →
      ∀ a : ℚ, (rlRunAux 10 s hist ds).2.countP
        (fun t => decide (a < t ∧ t ≤ a + 60)) ≤ 10 := by
  intro ds
  induction ds with
  | nil => intro s hist _ _ _ _ hcnt a; exact hcnt a
  | cons d rest ih =>
    intro s hist hds hcl hsub hlen hcnt a
    obtain ⟨hc1, hc2, hc3⟩ := hds d (List.mem_cons_self d rest)
    obtain ⟨k1, k2, k3, k4⟩ := rl_step s hist d hc1 hc2 hc3 hcl hsub hlen hcnt
    show (rlRunAux 10 (waitForRateLimit 10 s d)
      (hist ++ [(waitForRateLimit 10 s d).clock]) rest).2.countP _ ≤ 10
    exact ih (waitForRateLimit 10 s d) _
      (fun d2 h2 => hds d2 (List.mem_cons_of_mem _ h2)) k1 k2 k3 k4 a

/-- The head of a non-empty pruned list satisfies the prune predicate. -/
theorem prune_head_window (now : ℚ) (l : List ℚ)
    (h : 1 ≤ (pruneTimes now l).length) :
    now - (pruneTimes now l).headD 0 < 60 := by
  cases hc : pruneTimes now l with
  | nil => rw [hc] at h; simp at h
  | cons h0 tl =>
    have hmem : h0 ∈ pruneTimes now l := by
      rw [hc]; exact List.mem_cons_self h0 tl
    have := of_decide_eq_true (List.mem_filter.mp hmem).2
    simpa using this

/-- C7.  Universal-link rate limit: (a) for any execution of
`_wait_for_rate_limit` calls, starting with an empty request log and with
adversarial non-negative timing (elapsed time before each call, extra sleep,
read-to-append delay), no sliding 60-second window `(a, a+60]` contains more
than 10 recorded request start times; (b) whenever the pruned window is
full, the call sleeps until the oldest recorded request timestamp has left
the 60-second window before recording the next request. -/
theorem c7_rate_limit :
    (∀ (c0 : ℚ) (ds : List RLDelays),
      (∀ d ∈ ds, 0 ≤ d.preCall ∧ 0 ≤ d.sleepExtra ∧ 0 ≤ d.postRead) →
      ∀ a : ℚ, (rlHistory 10 c0 ds).countP
        (fun t => decide (a < t ∧ t ≤ a + 60)) ≤ 10) ∧
    (∀ (s : RLState) (d : RLDelays), 0 ≤ d.sleepExtra → 0 ≤ d.postRead →
      10 ≤ (pruneTimes (s.clock + d.preCall) s.requestTimes).length →
      60 < (waitForRateLimit 10 s d).clock -
        (pruneTimes (s.clock + d.preCall) s.requestTimes).headD 0) := by
  constructor
  · intro c0 ds hds a
    exact rl_run_bound ds ⟨c0, []⟩ [] hds (by simp) (by simp) (by simp)
      (by simp) a
  · intro s d h2 h3 hfull
    have hwq : s.clock + d.preCall -
        (pruneTimes (s.clock + d.preCall) s.requestTimes).headD 0 < 60 :=
      prune_head_window _ _ (le_trans (by omega) hfull)
    have hw : 0 < 60 - (s.clock + d.preCall -
        (pruneTimes (s.clock + d.preCall) s.requestTimes).headD 0) + 1 / 10 := by
      linarith
    rw [waitForRateLimit_full 10 s d hfull hw]
    dsimp only
    linarith

/-- C7 witness: eleven back-to-back requests stay within the bound, and a
full window of ten simultaneous timestamps forces a sleep past the oldest
one. -/
theorem c7_rate_limit_witness :
    ((∀ d ∈ List.replicate 11 (⟨0, 0, 0⟩ : RLDelays),
        0 ≤ d.preCall ∧ 0 ≤ d.sleepExtra ∧ 0 ≤ d.postRead) ∧
      (rlHistory 10 0 (List.replicate 11 ⟨0, 0, 0⟩)).countP
        (fun t => decide ((0 : ℚ) < t ∧ t ≤ 0 + 60)) ≤ 10) ∧
    (10 ≤ (pruneTimes ((0 : ℚ) + 0) (List.replicate 10 (0 : ℚ))).length ∧
      60 < (waitForRateLimit 10 ⟨0, List.replicate 10 0⟩ ⟨0, 0, 0⟩).clock -
        (pruneTimes ((0 : ℚ) + 0) (List.replicate 10 (0 : ℚ))).headD 0) := by
  have hds : ∀ d ∈ List.replicate 11 (⟨0, 0, 0⟩ : RLDelays),
      0 ≤ d.preCall ∧ 0 ≤ d.sleepExtra ∧ 0 ≤ d.postRead := by
    intro d hd
    have hd0 : d = ⟨0, 0, 0⟩ := List.eq_of_mem_replicate hd
    rw [hd0]
    exact ⟨le_rfl, le_rfl, le_rfl⟩
  have hprune : pruneTimes ((0 : ℚ) + 0) (List.replicate 10 (0 : ℚ)) =
      List.replicate 10 (0 : ℚ) := by
    apply List.filter_eq_self.mpr
    intro t ht
    have ht0 : t = 0 := List.eq_of_mem_replicate ht
    rw [ht0]
    norm_num
  have hfull : 10 ≤ (pruneTimes ((0 : ℚ) + 0) (List.replicate 10 (0 : ℚ))).length := by
    rw [hprune, List.length_replicate]
  exact ⟨⟨hds, c7_rate_limit.1 0 (List.replicate 11 ⟨0, 0, 0⟩) hds 0⟩,
    ⟨hfull, c7_rate_limit.2 ⟨0, List.replicate 10 0⟩ ⟨0, 0, 0⟩ le_rfl le_rfl hfull⟩⟩
